import Mathlib

/-!
# Verification of the decentralized threshold signing service

This file embeds the wasm binding layer of `src/olaf/src/lib.rs` together with a
model of the SimplPedPoP / FROST-style threshold-signing core it wraps
(the `schnorrkel::olaf` operations, which are not part of this repository's
sources and are therefore modelled from the specification).

The elliptic-curve group of prime order `q` is modelled in the exponent: a group
element is identified with its discrete logarithm, a scalar in `ZMod q`, and the
basepoint is `1`.  Scalar multiplication of a point is field multiplication and
point addition is field addition.  This is a faithful model of a cyclic group of
prime order up to the (unique) isomorphism sending the basepoint to `1`.
Hash functions (Fiat–Shamir challenge, binding factor, share-encryption key
derivation) are threaded as explicit function parameters, and randomness is an
explicit provider argument, as the specification's design notes require.
-/

/-! ## Byte-string encoding helpers (wire encoding layer) -/

/-- Little-endian base-256 encoding of a natural number into `w` bytes. -/
def natToBytesLE : Nat → Nat → List Nat
  | 0, _ => []
  | w + 1, n => n % 256 :: natToBytesLE w (n / 256)

/-- Little-endian base-256 decoding of a byte string. -/
def bytesToNatLE : List Nat → Nat
  | [] => 0
  | b :: r => b + 256 * bytesToNatLE r

theorem length_natToBytesLE (w n : Nat) : (natToBytesLE w n).length = w := by
  induction w generalizing n with
  | zero => rfl
  | succ w ih => simp [natToBytesLE, ih]

theorem bytesToNatLE_natToBytesLE (w n : Nat) (h : n < 256 ^ w) :
    bytesToNatLE (natToBytesLE w n) = n := by
  induction w generalizing n with
  | zero => simpa [natToBytesLE, bytesToNatLE] using (Nat.lt_one_iff.mp (by simpa using h)).symm
  | succ w ih =>
      have hdiv : n / 256 < 256 ^ w := by
        apply Nat.div_lt_of_lt_mul
        simpa [Nat.pow_succ, Nat.mul_comm] using h
      simp [natToBytesLE, bytesToNatLE, ih _ hdiv, Nat.mod_add_div]

/-- Read exactly `k` bytes from the front of a stream. -/
def readN (k : Nat) (b : List Nat) : Option (List Nat × List Nat) :=
  if k ≤ b.length then some (b.take k, b.drop k) else none

theorem readN_append (k : Nat) (a r : List Nat) (h : a.length = k) :
    readN k (a ++ r) = some (a, r) := by
  subst h
  simp [readN, List.take_left, List.drop_left]

/-- Read a 2-byte little-endian unsigned integer (the identifier/count width
used by the wire encoding: `u16` per the spec's `Parameters` invariants). -/
def readU16 (b : List Nat) : Option (Nat × List Nat) :=
  (readN 2 b).map (fun p => (bytesToNatLE p.1, p.2))

theorem readU16_append (n : Nat) (r : List Nat) (h : n < 256 ^ 2) :
    readU16 (natToBytesLE 2 n ++ r) = some (n, r) := by
  simp [readU16, readN_append 2 _ r (length_natToBytesLE 2 n),
    bytesToNatLE_natToBytesLE 2 n h]

/-- Read `k` consecutive items with the item reader `rd`. -/
def readCount {α : Type} (rd : List Nat → Option (α × List Nat)) :
    Nat → List Nat → Option (List α × List Nat)
  | 0, b => some ([], b)
  | k + 1, b =>
    match rd b with
    | none => none
    | some (x, r) =>
      match readCount rd k r with
      | none => none
      | some (xs, r') => some (x :: xs, r')

theorem readCount_append {α : Type} (rd : List Nat → Option (α × List Nat))
    (enc : α → List Nat) (xs : List α) (rest : List Nat)
    (henc : ∀ x ∈ xs, ∀ r, rd (enc x ++ r) = some (x, r)) :
    readCount rd xs.length ((xs.map enc).flatten ++ rest) = some (xs, rest) := by
  induction xs with
  | nil => simp [readCount]
  | cons x xs ih =>
      have hx := henc x (by simp) ((xs.map enc).flatten ++ rest)
      simp only [List.map_cons, List.flatten_cons, List.length_cons, List.append_assoc,
        readCount, hx, ih (fun y hy r => henc y (by simp [hy]) r)]

/-! ## Scalar / point algebra

The curve group of prime order `q` is modelled in the exponent: both scalars and
group elements are `ZMod q`, the basepoint is `1`, scalar multiplication of a
point is field multiplication, point addition is field addition.  A compressed
group element / scalar is encoded on 32 bytes, little-endian, and decoding
rejects non-canonical encodings (values `≥ q`). -/

/-- The fixed width, in bytes, of an encoded scalar or compressed point. -/
def SCALAR_WIDTH : Nat := 32

/-- `PUBLIC_KEY_LENGTH` from the source: 32 bytes (compressed group element). -/
def PUBLIC_KEY_LENGTH : Nat := 32

/-- `KEYPAIR_LENGTH` from the source: secret scalar (32) + nonce seed (32) +
public key (32). -/
def KEYPAIR_LENGTH : Nat := 96

/-- Canonical 32-byte encoding of a scalar / compressed point. -/
def scalarToBytes {q : Nat} [NeZero q] (x : ZMod q) : List Nat :=
  natToBytesLE SCALAR_WIDTH x.val

theorem length_scalarToBytes {q : Nat} [NeZero q] (x : ZMod q) :
    (scalarToBytes x).length = 32 :=
  length_natToBytesLE SCALAR_WIDTH x.val

/-- Decode a 32-byte canonical scalar / compressed-point encoding from the front
of a stream; fails on a non-canonical value. -/
def readScalar (q : Nat) [NeZero q] (b : List Nat) : Option (ZMod q × List Nat) :=
  match readN SCALAR_WIDTH b with
  | none => none
  | some (s, r) =>
    if bytesToNatLE s < q then some (((bytesToNatLE s : Nat) : ZMod q), r) else none

theorem readScalar_append {q : Nat} [NeZero q] (hq : q ≤ 256 ^ 32)
    (x : ZMod q) (r : List Nat) :
    readScalar q (scalarToBytes x ++ r) = some (x, r) := by
  have hval : x.val < q := ZMod.val_lt x
  have hlt : x.val < 256 ^ 32 := lt_of_lt_of_le hval hq
  rw [readScalar, scalarToBytes, readN_append SCALAR_WIDTH _ r (length_natToBytesLE _ _)]
  simp [SCALAR_WIDTH, bytesToNatLE_natToBytesLE 32 x.val hlt, hval,
    ZMod.natCast_rightInverse x]

/-! ## Data model

Modelled from the spec (§3 data model, §6 wire contracts): the protocol entities
of the `schnorrkel::olaf` core, which is not part of this repository's sources. -/

/-- Modelled from the spec: DKG configuration — participant count `n` and
threshold `t`, both 16-bit. -/
structure Parameters where
  participants : Nat
  threshold : Nat
deriving DecidableEq

/-- A Schnorr signature: commitment point `R` and response scalar `s`. -/
structure Sig (q : Nat) where
  R : ZMod q
  s : ZMod q
deriving DecidableEq

/-- Modelled from the spec: a participant's long-term identity — secret scalar,
nonce seed and public point (`public = secret · basepoint`, basepoint `= 1`). -/
structure Keypair (q : Nat) where
  secret : ZMod q
  nonceSeed : List Nat
  public : ZMod q
deriving DecidableEq

/-- Modelled from the spec: one participant's DKG broadcast (`AllMessage`) —
sender public key, parameters, recipients hash, encryption nonce, `t`
coefficient commitments, encrypted shares (one ciphertext per recipient),
ephemeral DH key, proof-of-possession and message signature. -/
structure AllMessage (q : Nat) where
  senderPk : ZMod q
  params : Parameters
  recipientsHash : List Nat
  encryptionNonce : List Nat
  coeffCommitments : List (ZMod q)
  encryptedShares : List (ZMod q)
  ephemeralKey : ZMod q
  pop : Sig q
  signature : Sig q
deriving DecidableEq

/-- Modelled from the spec: the result of a successful DKG recombination —
parameters, threshold public key and the ordered mapping from participant
identifier to verifying share. -/
structure SppOutput (q : Nat) where
  params : Parameters
  thresholdPublicKey : ZMod q
  verifyingShares : List (ZMod q × ZMod q)
deriving DecidableEq

/-- Modelled from the spec: the `SppOutput` wrapped with the recipient's public
key and self-signature, as returned by recombination. -/
structure SppOutputMessage (q : Nat) where
  signerPk : ZMod q
  output : SppOutput q
  signature : Sig q
deriving DecidableEq

/-- Modelled from the spec: a participant's usable secret share after DKG —
identifier, share scalar and the share's verifying point. -/
structure SigningKeypair (q : Nat) where
  id : ZMod q
  secret : ZMod q
  public : ZMod q
deriving DecidableEq

/-- Modelled from the spec: round-1 secret randomness — two secret scalars
(hiding and binding nonce). -/
structure SigningNonces (q : Nat) where
  hid : ZMod q
  bnd : ZMod q
deriving DecidableEq

/-- Modelled from the spec: round-1 public broadcast — the signer's identifier
and the two commitment points corresponding to its `SigningNonces`. -/
structure SigningCommitments (q : Nat) where
  id : ZMod q
  hid : ZMod q
  bnd : ZMod q
deriving DecidableEq

/-- Modelled from the spec: the context/message/commitment-set/DKG-output data
that every signing package of one signing session has in common. -/
structure CommonData (q : Nat) where
  context : List Nat
  message : List Nat
  commitments : List (SigningCommitments q)
  spp : SppOutput q
deriving DecidableEq

/-- Modelled from the spec: round-2 per-signer output — participant identifier,
partial signature scalar and the context/message binding data. -/
structure SigningPackage (q : Nat) where
  common : CommonData q
  id : ZMod q
  z : ZMod q
deriving DecidableEq

/-- Modelled from the spec: the final aggregated output — one commitment point
and one response scalar (standard Schnorr signature shape). -/
structure GroupSignature (q : Nat) where
  R : ZMod q
  z : ZMod q
deriving DecidableEq

/-! ## Wire encoding of the protocol messages

Modelled from the spec (§6): canonical fixed-width / count-prefixed byte
serializations; `decode` is the left inverse of `encode` on valid values. -/

/-- Encode `Parameters` as two 16-bit little-endian counts. -/
def Parameters.toBytes (p : Parameters) : List Nat :=
  natToBytesLE 2 p.participants ++ natToBytesLE 2 p.threshold

/-- `Parameters` is valid when both counts fit in 16 bits (spec §3). -/
def Parameters.wf (p : Parameters) : Prop :=
  p.participants < 256 ^ 2 ∧ p.threshold < 256 ^ 2

instance (p : Parameters) : Decidable p.wf := by unfold Parameters.wf; infer_instance

def readParams (b : List Nat) : Option (Parameters × List Nat) :=
  match readU16 b with
  | none => none
  | some (n, r) =>
    match readU16 r with
    | none => none
    | some (t, r') => some (⟨n, t⟩, r')

theorem readParams_append (p : Parameters) (hp : p.wf) (r : List Nat) :
    readParams (p.toBytes ++ r) = some (p, r) := by
  obtain ⟨h1, h2⟩ := hp
  simp only [Parameters.toBytes, List.append_assoc, readParams,
    readU16_append _ _ h1, readU16_append _ _ h2]

def Sig.toBytes {q : Nat} [NeZero q] (s : Sig q) : List Nat :=
  scalarToBytes s.R ++ scalarToBytes s.s

def readSig (q : Nat) [NeZero q] (b : List Nat) : Option (Sig q × List Nat) :=
  match readScalar q b with
  | none => none
  | some (x, r) =>
    match readScalar q r with
    | none => none
    | some (y, r') => some (⟨x, y⟩, r')

theorem readSig_append {q : Nat} [NeZero q] (hq : q ≤ 256 ^ 32) (s : Sig q)
    (r : List Nat) : readSig q (s.toBytes ++ r) = some (s, r) := by
  simp only [Sig.toBytes, List.append_assoc, readSig, readScalar_append hq]

def Keypair.toBytes {q : Nat} [NeZero q] (kp : Keypair q) : List Nat :=
  scalarToBytes kp.secret ++ kp.nonceSeed ++ scalarToBytes kp.public

/-- A keypair encoding is valid when the nonce seed is 32 bytes, so the whole
encoding is `KEYPAIR_LENGTH = 96` bytes. -/
def Keypair.wf {q : Nat} (kp : Keypair q) : Prop := kp.nonceSeed.length = 32

instance {q : Nat} (kp : Keypair q) : Decidable kp.wf := by
  unfold Keypair.wf; infer_instance

def readKeypair (q : Nat) [NeZero q] (b : List Nat) : Option (Keypair q × List Nat) :=
  match readScalar q b with
  | none => none
  | some (sec, r) =>
    match readN 32 r with
    | none => none
    | some (seed, r') =>
      match readScalar q r' with
      | none => none
      | some (pk, r'') => some (⟨sec, seed, pk⟩, r'')

theorem readKeypair_append {q : Nat} [NeZero q] (hq : q ≤ 256 ^ 32)
    (kp : Keypair q) (hw : kp.wf) (r : List Nat) :
    readKeypair q (kp.toBytes ++ r) = some (kp, r) := by
  simp only [Keypair.toBytes, List.append_assoc, readKeypair, readScalar_append hq,
    readN_append 32 _ _ hw]

theorem length_keypair_toBytes {q : Nat} [NeZero q] (kp : Keypair q) (hw : kp.wf) :
    kp.toBytes.length = KEYPAIR_LENGTH := by
  simp [Keypair.toBytes, length_scalarToBytes, KEYPAIR_LENGTH,
    show kp.nonceSeed.length = 32 from hw]

def SigningKeypair.toBytes {q : Nat} [NeZero q] (kp : SigningKeypair q) : List Nat :=
  scalarToBytes kp.id ++ scalarToBytes kp.secret ++ scalarToBytes kp.public

def readSigningKeypair (q : Nat) [NeZero q] (b : List Nat) :
    Option (SigningKeypair q × List Nat) :=
  match readScalar q b with
  | none => none
  | some (i, r) =>
    match readScalar q r with
    | none => none
    | some (sec, r') =>
      match readScalar q r' with
      | none => none
      | some (pk, r'') => some (⟨i, sec, pk⟩, r'')

theorem readSigningKeypair_append {q : Nat} [NeZero q] (hq : q ≤ 256 ^ 32)
    (kp : SigningKeypair q) (r : List Nat) :
    readSigningKeypair q (kp.toBytes ++ r) = some (kp, r) := by
  simp only [SigningKeypair.toBytes, List.append_assoc, readSigningKeypair,
    readScalar_append hq]

def SigningNonces.toBytes {q : Nat} [NeZero q] (n : SigningNonces q) : List Nat :=
  scalarToBytes n.hid ++ scalarToBytes n.bnd

def readSigningNonces (q : Nat) [NeZero q] (b : List Nat) :
    Option (SigningNonces q × List Nat) :=
  match readScalar q b with
  | none => none
  | some (d, r) =>
    match readScalar q r with
    | none => none
    | some (e, r') => some (⟨d, e⟩, r')

theorem readSigningNonces_append {q : Nat} [NeZero q] (hq : q ≤ 256 ^ 32)
    (n : SigningNonces q) (r : List Nat) :
    readSigningNonces q (n.toBytes ++ r) = some (n, r) := by
  simp only [SigningNonces.toBytes, List.append_assoc, readSigningNonces,
    readScalar_append hq]

def SigningCommitments.toBytes {q : Nat} [NeZero q] (c : SigningCommitments q) :
    List Nat :=
  scalarToBytes c.id ++ scalarToBytes c.hid ++ scalarToBytes c.bnd

def readSigningCommitments (q : Nat) [NeZero q] (b : List Nat) :
    Option (SigningCommitments q × List Nat) :=
  match readScalar q b with
  | none => none
  | some (i, r) =>
    match readScalar q r with
    | none => none
    | some (d, r') =>
      match readScalar q r' with
      | none => none
      | some (e, r'') => some (⟨i, d, e⟩, r'')

theorem readSigningCommitments_append {q : Nat} [NeZero q] (hq : q ≤ 256 ^ 32)
    (c : SigningCommitments q) (r : List Nat) :
    readSigningCommitments q (c.toBytes ++ r) = some (c, r) := by
  simp only [SigningCommitments.toBytes, List.append_assoc, readSigningCommitments,
    readScalar_append hq]

def GroupSignature.toBytes {q : Nat} [NeZero q] (s : GroupSignature q) : List Nat :=
  scalarToBytes s.R ++ scalarToBytes s.z

def readGroupSignature (q : Nat) [NeZero q] (b : List Nat) :
    Option (GroupSignature q × List Nat) :=
  match readScalar q b with
  | none => none
  | some (x, r) =>
    match readScalar q r with
    | none => none
    | some (y, r') => some (⟨x, y⟩, r')

theorem readGroupSignature_append {q : Nat} [NeZero q] (hq : q ≤ 256 ^ 32)
    (s : GroupSignature q) (r : List Nat) :
    readGroupSignature q (s.toBytes ++ r) = some (s, r) := by
  simp only [GroupSignature.toBytes, List.append_assoc, readGroupSignature,
    readScalar_append hq]

/-- Encode one `(identifier, verifying share)` pair. -/
def sharePairToBytes {q : Nat} [NeZero q] (p : ZMod q × ZMod q) : List Nat :=
  scalarToBytes p.1 ++ scalarToBytes p.2

def readSharePair (q : Nat) [NeZero q] (b : List Nat) :
    Option ((ZMod q × ZMod q) × List Nat) :=
  match readScalar q b with
  | none => none
  | some (i, r) =>
    match readScalar q r with
    | none => none
    | some (v, r') => some ((i, v), r')

theorem readSharePair_append {q : Nat} [NeZero q] (hq : q ≤ 256 ^ 32)
    (p : ZMod q × ZMod q) (r : List Nat) :
    readSharePair q (sharePairToBytes p ++ r) = some (p, r) := by
  simp only [sharePairToBytes, List.append_assoc, readSharePair, readScalar_append hq]

/-- Encode an `SppOutput`: parameters, threshold public key, then the
count-prefixed ordered `(identifier, verifying share)` mapping. -/
def SppOutput.toBytes {q : Nat} [NeZero q] (o : SppOutput q) : List Nat :=
  o.params.toBytes ++ scalarToBytes o.thresholdPublicKey ++
    natToBytesLE 2 o.verifyingShares.length ++
    (o.verifyingShares.map sharePairToBytes).flatten

def SppOutput.wf {q : Nat} (o : SppOutput q) : Prop :=
  o.params.wf ∧ o.verifyingShares.length < 256 ^ 2

instance {q : Nat} (o : SppOutput q) : Decidable o.wf := by
  unfold SppOutput.wf; infer_instance

def readSppOutput (q : Nat) [NeZero q] (b : List Nat) :
    Option (SppOutput q × List Nat) :=
  match readParams b with
  | none => none
  | some (ps, r) =>
    match readScalar q r with
    | none => none
    | some (tpk, r') =>
      match readU16 r' with
      | none => none
      | some (k, r'') =>
        match readCount (readSharePair q) k r'' with
        | none => none
        | some (shares, rest) => some (⟨ps, tpk, shares⟩, rest)

theorem readSppOutput_append {q : Nat} [NeZero q] (hq : q ≤ 256 ^ 32)
    (o : SppOutput q) (hw : o.wf) (r : List Nat) :
    readSppOutput q (o.toBytes ++ r) = some (o, r) := by
  obtain ⟨hp, hk⟩ := hw
  have hcnt := readCount_append (readSharePair q) sharePairToBytes
    o.verifyingShares r (fun x _ r' => readSharePair_append hq x r')
  simp only [SppOutput.toBytes, List.append_assoc, readSppOutput,
    readParams_append _ hp, readScalar_append hq, readU16_append _ _ hk, hcnt]

/-- Encode an `SppOutputMessage`: signer public key, output, self-signature. -/
def SppOutputMessage.toBytes {q : Nat} [NeZero q] (m : SppOutputMessage q) :
    List Nat :=
  scalarToBytes m.signerPk ++ m.output.toBytes ++ m.signature.toBytes

def SppOutputMessage.wf {q : Nat} (m : SppOutputMessage q) : Prop := m.output.wf

instance {q : Nat} (m : SppOutputMessage q) : Decidable m.wf := by
  unfold SppOutputMessage.wf; infer_instance

def readSppOutputMessage (q : Nat) [NeZero q] (b : List Nat) :
    Option (SppOutputMessage q × List Nat) :=
  match readScalar q b with
  | none => none
  | some (pk, r) =>
    match readSppOutput q r with
    | none => none
    | some (o, r') =>
      match readSig q r' with
      | none => none
      | some (sg, r'') => some (⟨pk, o, sg⟩, r'')

theorem readSppOutputMessage_append {q : Nat} [NeZero q] (hq : q ≤ 256 ^ 32)
    (m : SppOutputMessage q) (hw : m.wf) (r : List Nat) :
    readSppOutputMessage q (m.toBytes ++ r) = some (m, r) := by
  simp only [SppOutputMessage.toBytes, List.append_assoc, readSppOutputMessage,
    readScalar_append hq, readSppOutput_append hq _ hw, readSig_append hq]

/-- Encode the common (session) data of a signing package: length-prefixed
context and message, count-prefixed commitment set, then the DKG output. -/
def CommonData.toBytes {q : Nat} [NeZero q] (cd : CommonData q) : List Nat :=
  natToBytesLE 2 cd.context.length ++ cd.context ++
    natToBytesLE 2 cd.message.length ++ cd.message ++
    natToBytesLE 2 cd.commitments.length ++
    (cd.commitments.map SigningCommitments.toBytes).flatten ++ cd.spp.toBytes

def CommonData.wf {q : Nat} (cd : CommonData q) : Prop :=
  cd.context.length < 256 ^ 2 ∧ cd.message.length < 256 ^ 2 ∧
    cd.commitments.length < 256 ^ 2 ∧ cd.spp.wf

instance {q : Nat} (cd : CommonData q) : Decidable cd.wf := by
  unfold CommonData.wf; infer_instance

def readCommonData (q : Nat) [NeZero q] (b : List Nat) :
    Option (CommonData q × List Nat) :=
  match readU16 b with
  | none => none
  | some (lc, r) =>
    match readN lc r with
    | none => none
    | some (ctx, r') =>
      match readU16 r' with
      | none => none
      | some (lm, r2) =>
        match readN lm r2 with
        | none => none
        | some (msg, r3) =>
          match readU16 r3 with
          | none => none
          | some (k, r4) =>
            match readCount (readSigningCommitments q) k r4 with
            | none => none
            | some (cs, r5) =>
              match readSppOutput q r5 with
              | none => none
              | some (o, rest) => some (⟨ctx, msg, cs, o⟩, rest)

theorem readCommonData_append {q : Nat} [NeZero q] (hq : q ≤ 256 ^ 32)
    (cd : CommonData q) (hw : cd.wf) (r : List Nat) :
    readCommonData q (cd.toBytes ++ r) = some (cd, r) := by
  obtain ⟨h1, h2, h3, h4⟩ := hw
  have hcnt := readCount_append (readSigningCommitments q) SigningCommitments.toBytes
    cd.commitments (cd.spp.toBytes ++ r) (fun x _ r' => readSigningCommitments_append hq x r')
  simp only [CommonData.toBytes, List.append_assoc, readCommonData,
    readU16_append _ _ h1, readN_append _ _ _ rfl, readU16_append _ _ h2,
    readU16_append _ _ h3, hcnt, readSppOutput_append hq _ h4]

/-- Encode a `SigningPackage`: common data, signer identifier, partial scalar. -/
def SigningPackage.toBytes {q : Nat} [NeZero q] (p : SigningPackage q) : List Nat :=
  p.common.toBytes ++ scalarToBytes p.id ++ scalarToBytes p.z

def SigningPackage.wf {q : Nat} (p : SigningPackage q) : Prop := p.common.wf

instance {q : Nat} (p : SigningPackage q) : Decidable p.wf := by
  unfold SigningPackage.wf; infer_instance

def readSigningPackage (q : Nat) [NeZero q] (b : List Nat) :
    Option (SigningPackage q × List Nat) :=
  match readCommonData q b with
  | none => none
  | some (cd, r) =>
    match readScalar q r with
    | none => none
    | some (i, r') =>
      match readScalar q r' with
      | none => none
      | some (z, r'') => some (⟨cd, i, z⟩, r'')

theorem readSigningPackage_append {q : Nat} [NeZero q] (hq : q ≤ 256 ^ 32)
    (p : SigningPackage q) (hw : p.wf) (r : List Nat) :
    readSigningPackage q (p.toBytes ++ r) = some (p, r) := by
  simp only [SigningPackage.toBytes, List.append_assoc, readSigningPackage,
    readCommonData_append hq _ hw, readScalar_append hq]

/-- The signed content of an `AllMessage` (everything but the trailing
message signature). -/
def AllMessage.contentBytes {q : Nat} [NeZero q] (m : AllMessage q) : List Nat :=
  scalarToBytes m.senderPk ++ m.params.toBytes ++
    natToBytesLE 2 m.recipientsHash.length ++ m.recipientsHash ++
    natToBytesLE 2 m.encryptionNonce.length ++ m.encryptionNonce ++
    natToBytesLE 2 m.coeffCommitments.length ++
    (m.coeffCommitments.map scalarToBytes).flatten ++
    natToBytesLE 2 m.encryptedShares.length ++
    (m.encryptedShares.map scalarToBytes).flatten ++
    scalarToBytes m.ephemeralKey ++ m.pop.toBytes

/-- Encode an `AllMessage`: the signed content followed by the signature. -/
def AllMessage.toBytes {q : Nat} [NeZero q] (m : AllMessage q) : List Nat :=
  m.contentBytes ++ m.signature.toBytes

def AllMessage.wf {q : Nat} (m : AllMessage q) : Prop :=
  m.params.wf ∧ m.recipientsHash.length < 256 ^ 2 ∧
    m.encryptionNonce.length < 256 ^ 2 ∧ m.coeffCommitments.length < 256 ^ 2 ∧
    m.encryptedShares.length < 256 ^ 2

instance {q : Nat} (m : AllMessage q) : Decidable m.wf := by
  unfold AllMessage.wf; infer_instance

/-- Read a bare scalar item (for count-prefixed scalar lists). -/
def readScalarItem (q : Nat) [NeZero q] (b : List Nat) :
    Option (ZMod q × List Nat) := readScalar q b

def readAllMessage (q : Nat) [NeZero q] (b : List Nat) :
    Option (AllMessage q × List Nat) :=
  match readScalar q b with
  | none => none
  | some (pk, r0) =>
    match readParams r0 with
    | none => none
    | some (ps, r1) =>
      match readU16 r1 with
      | none => none
      | some (lh, r2) =>
        match readN lh r2 with
        | none => none
        | some (rh, r3) =>
          match readU16 r3 with
          | none => none
          | some (ln, r4) =>
            match readN ln r4 with
            | none => none
            | some (enc, r5) =>
              match readU16 r5 with
              | none => none
              | some (kc, r6) =>
                match readCount (readScalarItem q) kc r6 with
                | none => none
                | some (cc, r7) =>
                  match readU16 r7 with
                  | none => none
                  | some (ks, r8) =>
                    match readCount (readScalarItem q) ks r8 with
                    | none => none
                    | some (es, r9) =>
                      match readScalar q r9 with
                      | none => none
                      | some (eph, r10) =>
                        match readSig q r10 with
                        | none => none
                        | some (pp, r11) =>
                          match readSig q r11 with
                          | none => none
                          | some (sg, rest) =>
                            some (⟨pk, ps, rh, enc, cc, es, eph, pp, sg⟩, rest)

theorem readAllMessage_append {q : Nat} [NeZero q] (hq : q ≤ 256 ^ 32)
    (m : AllMessage q) (hw : m.wf) (r : List Nat) :
    readAllMessage q (m.toBytes ++ r) = some (m, r) := by
  obtain ⟨hp, h1, h2, h3, h4⟩ := hw
  have hcc := readCount_append (readScalarItem q) scalarToBytes
    m.coeffCommitments (natToBytesLE 2 m.encryptedShares.length ++
      ((m.encryptedShares.map scalarToBytes).flatten ++
        (scalarToBytes m.ephemeralKey ++ (m.pop.toBytes ++ (m.signature.toBytes ++ r)))))
    (fun x _ r' => readScalar_append hq x r')
  have hes := readCount_append (readScalarItem q) scalarToBytes
    m.encryptedShares (scalarToBytes m.ephemeralKey ++
      (m.pop.toBytes ++ (m.signature.toBytes ++ r)))
    (fun x _ r' => readScalar_append hq x r')
  simp only [AllMessage.toBytes, AllMessage.contentBytes, List.append_assoc,
    readAllMessage, readScalar_append hq, readParams_append _ hp,
    readU16_append _ _ h1, readN_append _ _ _ rfl, readU16_append _ _ h2,
    readU16_append _ _ h3, hcc, readU16_append _ _ h4, hes, readSig_append hq]

/-- Run a stream reader demanding that it consume the whole input
(`from_bytes` semantics). -/
def fullRead {α : Type} (rd : List Nat → Option (α × List Nat)) (b : List Nat) :
    Option α :=
  match rd b with
  | some (v, []) => some v
  | _ => none

theorem fullRead_of_read_append {α : Type} (rd : List Nat → Option (α × List Nat))
    (enc : List Nat) (x : α) (h : ∀ r, rd (enc ++ r) = some (x, r)) :
    fullRead rd enc = some x := by
  have h0 := h []
  rw [List.append_nil] at h0
  simp [fullRead, h0]

def Keypair.fromBytes (q : Nat) [NeZero q] (b : List Nat) : Option (Keypair q) :=
  fullRead (readKeypair q) b

theorem keypair_fromBytes_toBytes {q : Nat} [NeZero q] (hq : q ≤ 256 ^ 32)
    (kp : Keypair q) (hw : kp.wf) : Keypair.fromBytes q kp.toBytes = some kp :=
  fullRead_of_read_append _ _ _ (fun r => readKeypair_append hq kp hw r)

def SigningKeypair.fromBytes (q : Nat) [NeZero q] (b : List Nat) :
    Option (SigningKeypair q) :=
  fullRead (readSigningKeypair q) b

theorem signingKeypair_fromBytes_toBytes {q : Nat} [NeZero q] (hq : q ≤ 256 ^ 32)
    (kp : SigningKeypair q) : SigningKeypair.fromBytes q kp.toBytes = some kp :=
  fullRead_of_read_append _ _ _ (fun r => readSigningKeypair_append hq kp r)

def SigningNonces.fromBytes (q : Nat) [NeZero q] (b : List Nat) :
    Option (SigningNonces q) :=
  fullRead (readSigningNonces q) b

theorem signingNonces_fromBytes_toBytes {q : Nat} [NeZero q] (hq : q ≤ 256 ^ 32)
    (n : SigningNonces q) : SigningNonces.fromBytes q n.toBytes = some n :=
  fullRead_of_read_append _ _ _ (fun r => readSigningNonces_append hq n r)

def SigningCommitments.fromBytes (q : Nat) [NeZero q] (b : List Nat) :
    Option (SigningCommitments q) :=
  fullRead (readSigningCommitments q) b

theorem signingCommitments_fromBytes_toBytes {q : Nat} [NeZero q]
    (hq : q ≤ 256 ^ 32) (c : SigningCommitments q) :
    SigningCommitments.fromBytes q c.toBytes = some c :=
  fullRead_of_read_append _ _ _ (fun r => readSigningCommitments_append hq c r)

def SppOutputMessage.fromBytes (q : Nat) [NeZero q] (b : List Nat) :
    Option (SppOutputMessage q) :=
  fullRead (readSppOutputMessage q) b

theorem sppOutputMessage_fromBytes_toBytes {q : Nat} [NeZero q]
    (hq : q ≤ 256 ^ 32) (m : SppOutputMessage q) (hw : m.wf) :
    SppOutputMessage.fromBytes q m.toBytes = some m :=
  fullRead_of_read_append _ _ _ (fun r => readSppOutputMessage_append hq m hw r)

def AllMessage.fromBytes (q : Nat) [NeZero q] (b : List Nat) :
    Option (AllMessage q) :=
  fullRead (readAllMessage q) b

theorem allMessage_fromBytes_toBytes {q : Nat} [NeZero q] (hq : q ≤ 256 ^ 32)
    (m : AllMessage q) (hw : m.wf) : AllMessage.fromBytes q m.toBytes = some m :=
  fullRead_of_read_append _ _ _ (fun r => readAllMessage_append hq m hw r)

def SigningPackage.fromBytes (q : Nat) [NeZero q] (b : List Nat) :
    Option (SigningPackage q) :=
  fullRead (readSigningPackage q) b

theorem signingPackage_fromBytes_toBytes {q : Nat} [NeZero q] (hq : q ≤ 256 ^ 32)
    (p : SigningPackage q) (hw : p.wf) :
    SigningPackage.fromBytes q p.toBytes = some p :=
  fullRead_of_read_append _ _ _ (fun r => readSigningPackage_append hq p hw r)

def GroupSignature.fromBytes (q : Nat) [NeZero q] (b : List Nat) :
    Option (GroupSignature q) :=
  fullRead (readGroupSignature q) b

theorem groupSignature_fromBytes_toBytes {q : Nat} [NeZero q] (hq : q ≤ 256 ^ 32)
    (s : GroupSignature q) : GroupSignature.fromBytes q s.toBytes = some s :=
  fullRead_of_read_append _ _ _ (fun r => readGroupSignature_append hq s r)

/-! ## Multi-message batch encoding

Modelled from the spec (§6, §9): multi-message batches — the JSON-wrapped
collections of byte strings exchanged through the binding layer — are an
ordered collection of byte strings; any count- or length-prefixed encoding
suffices, so the batch is modelled as a count-prefixed list of length-prefixed
byte strings.  A batch that does not parse models invalid UTF-8/JSON input. -/

def batchToBytes (chunks : List (List Nat)) : List Nat :=
  natToBytesLE 2 chunks.length ++
    (chunks.map (fun c => natToBytesLE 2 c.length ++ c)).flatten

def readChunk (b : List Nat) : Option (List Nat × List Nat) :=
  match readU16 b with
  | none => none
  | some (l, r) => readN l r

theorem readChunk_append (c : List Nat) (hc : c.length < 256 ^ 2) (r : List Nat) :
    readChunk ((natToBytesLE 2 c.length ++ c) ++ r) = some (c, r) := by
  simp only [readChunk, List.append_assoc, readU16_append _ _ hc,
    readN_append _ _ _ rfl]

/-- Parse a whole batch into its ordered list of byte strings. -/
def parseBatch (b : List Nat) : Option (List (List Nat)) :=
  fullRead (fun b' =>
    match readU16 b' with
    | none => none
    | some (k, r) => readCount readChunk k r) b

theorem parseBatch_toBytes (chunks : List (List Nat))
    (hk : chunks.length < 256 ^ 2) (hc : ∀ c ∈ chunks, c.length < 256 ^ 2) :
    parseBatch (batchToBytes chunks) = some chunks := by
  apply fullRead_of_read_append
  intro r
  have hcnt := readCount_append readChunk (fun c => natToBytesLE 2 c.length ++ c)
    chunks r (fun x hx r' => readChunk_append x (hc x hx) r')
  simp only [batchToBytes, List.append_assoc, readU16_append _ _ hk, hcnt]

/-! ## Scalar/point algebra and Schnorr signatures (core model) -/

/-- The basepoint of the group in the exponent model. -/
def basepoint (q : Nat) : ZMod q := 1

/-- Horner evaluation of the polynomial with coefficient list `coeffs`
(constant term first) at `x`. -/
def evalPoly {q : Nat} (coeffs : List (ZMod q)) (x : ZMod q) : ZMod q :=
  coeffs.foldr (fun a acc => a + x * acc) 0

/-- Modelled from the spec: Schnorr signing in the exponent model — commitment
`R = r·B`, Fiat–Shamir challenge `c = hsig(R ‖ pk ‖ msg)`, response
`s = r + c·sk`. -/
def schnorrSign {q : Nat} [NeZero q] (hsig : List Nat → ZMod q)
    (sk pk r : ZMod q) (msg : List Nat) : Sig q :=
  let R := r * basepoint q
  ⟨R, r + hsig (scalarToBytes R ++ scalarToBytes pk ++ msg) * sk⟩

/-- Modelled from the spec: Schnorr verification — `s·B = R + c·pk`. -/
def schnorrVerify {q : Nat} [NeZero q] (hsig : List Nat → ZMod q)
    (pk : ZMod q) (sg : Sig q) (msg : List Nat) : Bool :=
  sg.s * basepoint q ==
    sg.R + hsig (scalarToBytes sg.R ++ scalarToBytes pk ++ msg) * pk

/-- The message signed by a proof-of-possession: the sender's own public key. -/
def popMessage {q : Nat} [NeZero q] (pk : ZMod q) : List Nat := scalarToBytes pk

/-! ## Key-generation engine (SimplPedPoP), modelled from the spec §4.1–§4.2 -/

/-- Modelled from the spec: the identifier of the `i`-th participant —
its 1-based index in the canonical recipient order (16-bit width). -/
def identifierOf (q : Nat) (i : Nat) : ZMod q := ((i + 1 : Nat) : ZMod q)

/-- Modelled from the spec: `RecipientsHash` — a 32-byte digest of the ordered
recipient public keys. -/
def recipientsHashOf {q : Nat} [NeZero q] (recipients : List (ZMod q)) : List Nat :=
  natToBytesLE 32
    (recipients.foldl (fun a v => (a * 65537 + v.val + 1) % 256 ^ 32) 0)

/-- Modelled from the spec (§4.1): build one DKG contribution. Validates the
threshold (zero, above the participant count, or above the 16-bit identifier
width are `InvalidParameters`), samples the secret polynomial, commits to its
coefficients, evaluates it at every recipient identifier and encrypts each
share to its recipient with a key derived (`henc`) from the ephemeral
Diffie–Hellman exchange and a fresh nonce, then attaches a proof-of-possession
and a signature over the whole content.  The randomness provider `rng` is an
explicit argument (spec §9); `hsig` is the Fiat–Shamir hash.  (The spec's
`n − 1` ciphertexts exclude the sender's own; for closure of recombination over
the message set alone this model encrypts one share per recipient, the
sender's own included.) -/
def simplpedpopContributeAll {q : Nat} [NeZero q] (hsig : List Nat → ZMod q)
    (henc : ZMod q → List Nat → ZMod q) (kp : Keypair q) (threshold : Nat)
    (recipients : List (ZMod q)) (rng : Nat → ZMod q) :
    Except String (AllMessage q) :=
  let n := recipients.length
  if threshold = 0 ∨ n < threshold ∨ 256 ^ 2 ≤ threshold then
    .error "InvalidParameters"
  else
    let coeffs := (List.range threshold).map rng
    let eph := rng threshold
    let encNonce := scalarToBytes (rng (threshold + 1))
    let cts := (List.range n).map (fun i =>
      evalPoly coeffs (identifierOf q i) + henc (eph * recipients.getD i 0) encNonce)
    let content : AllMessage q :=
      { senderPk := kp.public
        params := ⟨n, threshold⟩
        recipientsHash := recipientsHashOf recipients
        encryptionNonce := encNonce
        coeffCommitments := coeffs.map (· * basepoint q)
        encryptedShares := cts
        ephemeralKey := eph * basepoint q
        pop := schnorrSign hsig kp.secret kp.public (rng (threshold + 2))
          (popMessage kp.public)
        signature := ⟨0, 0⟩ }
    let sg := schnorrSign hsig kp.secret kp.public (rng (threshold + 3))
      content.contentBytes
    .ok { content with signature := sg }

/-- The share addressed to recipient index `j` in message `m`, decrypted with
the recipient's long-term secret `sk` (inverse of the ephemeral-DH encryption). -/
def decryptShare {q : Nat} [NeZero q] (henc : ZMod q → List Nat → ZMod q)
    (sk : ZMod q) (m : AllMessage q) (j : Nat) : ZMod q :=
  m.encryptedShares.getD j 0 - henc (sk * m.ephemeralKey) m.encryptionNonce

/-- A default (zeroed) `AllMessage`, used only as a `headD` placeholder. -/
def defaultAllMessage (q : Nat) [NeZero q] : AllMessage q :=
  ⟨0, ⟨0, 0⟩, [], [], [], [], 0, ⟨0, 0⟩, ⟨0, 0⟩⟩

/-- Modelled from the spec (§4.2): the recipient-independent part of the
recombination output — the threshold public key is the sum of all contributors'
constant-term commitments, and the verifying share of every identifier is the
sum over contributions of the commitment evaluation at that identifier. -/
def recombineOutput (q : Nat) [NeZero q] (msgs : List (AllMessage q)) :
    SppOutput q :=
  let ps := (msgs.headD (defaultAllMessage q)).params
  { params := ps
    thresholdPublicKey := (msgs.map (fun m => m.coeffCommitments.getD 0 0)).sum
    verifyingShares := (List.range ps.participants).map (fun i =>
      (identifierOf q i,
        (msgs.map (fun m => evalPoly m.coeffCommitments (identifierOf q i))).sum)) }

/-- Modelled from the spec (§4.2 step 2): recombination.  Fails (all-or-nothing)
on an incomplete message set, invalid or mismatched parameters, mismatched
recipient hashes, wrong commitment/ciphertext counts, any invalid signature or
proof-of-possession, or when no ciphertext index yields shares consistent with
every contribution's coefficient commitments (Feldman verification).  On
success returns the signed `SppOutputMessage` and the recipient's
`SigningKeypair`, whose secret is the sum of all decrypted shares. -/
def recombine {q : Nat} [NeZero q] (hsig : List Nat → ZMod q)
    (henc : ZMod q → List Nat → ZMod q) (kp : Keypair q)
    (msgs : List (AllMessage q)) :
    Except String (SppOutputMessage q × SigningKeypair q) :=
  match msgs with
  | [] => .error "EmptyMessages"
  | m0 :: _ =>
    let ps := m0.params
    if msgs.length ≠ ps.participants then .error "IncorrectNumberOfMessages"
    else if ps.threshold = 0 ∨ ps.participants < ps.threshold then
      .error "InvalidParameters"
    else if ¬ msgs.all (fun m => m.params == ps) then .error "DifferentParameters"
    else if ¬ msgs.all (fun m => m.recipientsHash == m0.recipientsHash) then
      .error "DifferentRecipientsHash"
    else if ¬ msgs.all (fun m => m.coeffCommitments.length == ps.threshold &&
        m.encryptedShares.length == ps.participants) then
      .error "IncorrectNumberOfCommitments"
    else if ¬ msgs.all (fun m => schnorrVerify hsig m.senderPk m.signature
        m.contentBytes && schnorrVerify hsig m.senderPk m.pop
        (popMessage m.senderPk)) then
      .error "InvalidSignature"
    else
      match (List.range ps.participants).find? (fun j =>
          msgs.all (fun m => decryptShare henc kp.secret m j ==
            evalPoly m.coeffCommitments (identifierOf q j))) with
      | none => .error "InvalidSecretShare"
      | some j =>
        let out := recombineOutput q msgs
        let secret := (msgs.map (fun m => decryptShare henc kp.secret m j)).sum
        let sg := schnorrSign hsig kp.secret kp.public
          (hsig (kp.nonceSeed ++ out.toBytes)) out.toBytes
        .ok ({ signerPk := kp.public, output := out, signature := sg },
          { id := identifierOf q j, secret := secret,
            public := secret * basepoint q })

/-! ## Signing engine (two-round threshold Schnorr), modelled from the spec §4.3 -/

/-- Modelled from the spec (§4.3 round 1): produce one-time `SigningNonces`
(two fresh scalars from the explicit randomness provider) and the
corresponding `SigningCommitments`. -/
def commit {q : Nat} [NeZero q] (kp : SigningKeypair q) (rng : Nat → ZMod q) :
    SigningNonces q × SigningCommitments q :=
  (⟨rng 0, rng 1⟩, ⟨kp.id, rng 0 * basepoint q, rng 1 * basepoint q⟩)

/-- Modelled from the spec: the aggregate public commitment
`Σ_j (hiding_j + ρ_j · binding_j)` over the session's commitment set, where the
binding factor `ρ_j = hbf(context, message, commitment set, identifier_j)`. -/
def groupCommitment {q : Nat} [NeZero q]
    (hbf : List Nat → List Nat → List (SigningCommitments q) → ZMod q → ZMod q)
    (cd : CommonData q) : ZMod q :=
  (cd.commitments.map (fun c =>
    c.hid + hbf cd.context cd.message cd.commitments c.id * c.bnd)).sum

/-- The multiplicative inverse in `ZMod q` computed by Fermat exponentiation
(`x⁻¹ = x ^ (q − 2)` for prime `q` and `x ≠ 0`); unlike the extended-gcd
inverse it evaluates by kernel reduction. -/
def zmodInv (q : Nat) (x : ZMod q) : ZMod q := x ^ (q - 2)

/-- Modelled from the spec: the Lagrange interpolation weight at zero of the
`i`-th identifier among `ids`: `∏_{j ≠ i} id_j · (id_j − id_i)⁻¹`. -/
def lagrangeAtZero {q : Nat} [Fact q.Prime] (ids : List (ZMod q)) (i : Nat) :
    ZMod q :=
  ∏ j ∈ (Finset.range ids.length).erase i,
    ids.getD j 0 * zmodInv q (ids.getD j 0 - ids.getD i 0)

/-- Modelled from the spec (§4.3 round 2): compute this signer's partial
signature.  The binding factor is `hbf(context, message, commitment set,
identifier)`, the challenge is `hch(aggregate commitment, threshold public key,
context, message)`, and the partial response is
`hiding_nonce + ρ·binding_nonce + c·λ·share`.  Fails when the signer's
identifier has no commitment in the session's commitment set. -/
def sign {q : Nat} [Fact q.Prime]
    (hbf : List Nat → List Nat → List (SigningCommitments q) → ZMod q → ZMod q)
    (hch : ZMod q → ZMod q → List Nat → List Nat → ZMod q)
    (ctx msg : List Nat) (spp : SppOutput q)
    (comms : List (SigningCommitments q)) (kp : SigningKeypair q)
    (nonces : SigningNonces q) : Except String (SigningPackage q) :=
  let cd : CommonData q := ⟨ctx, msg, comms, spp⟩
  let i := comms.findIdx (fun c => c.id == kp.id)
  if i < comms.length then
    let rho := hbf ctx msg comms kp.id
    let c := hch (groupCommitment hbf cd) spp.thresholdPublicKey ctx msg
    .ok ⟨cd, kp.id, nonces.hid + rho * nonces.bnd +
      c * lagrangeAtZero (comms.map (fun x => x.id)) i * kp.secret⟩
  else .error "MissingOwnSigningCommitment"

/-- Modelled from the spec (§4.3 aggregation): requires at least `threshold`
packages for the same common data — fewer is a fatal `InsufficientShares`
error, mismatched session data is rejected — and sums the partial responses,
pairing the group response with the recomputed aggregate commitment. -/
def aggregate {q : Nat} [NeZero q]
    (hbf : List Nat → List Nat → List (SigningCommitments q) → ZMod q → ZMod q)
    (pkgs : List (SigningPackage q)) : Except String (GroupSignature q) :=
  match pkgs with
  | [] => .error "InsufficientShares"
  | p :: rest =>
    if rest.length + 1 < p.common.spp.params.threshold then
      .error "InsufficientShares"
    else if rest.all (fun x => x.common == p.common) then
      .ok ⟨groupCommitment hbf p.common, ((p :: rest).map (fun x => x.z)).sum⟩
    else .error "MismatchedCommonData"

/-- `verify_simple`: standard single-key Schnorr verification of a group
signature against a public key for `(context, message)` —
`z·B = R + hch(R, pk, context, message)·pk`. -/
def verifySimple {q : Nat} [NeZero q]
    (hch : ZMod q → ZMod q → List Nat → List Nat → ZMod q) (pk : ZMod q)
    (ctx msg : List Nat) (sg : GroupSignature q) : Bool :=
  sg.z * basepoint q == sg.R + hch sg.R pk ctx msg * pk

/-! ## The wasm binding layer, embedded from `src/olaf/src/lib.rs`

Each `wasm_*` export is a total function from byte strings to
`Except String` of its result bytes, mirroring the source's
`Result<_, JsValue>` with string errors.  The hash functions and the
randomness provider of the modelled core are explicit leading arguments. -/

/-- Modelled from the spec: `MiniSecretKey::from_bytes` — accepts exactly
32-byte seeds. -/
def miniSecretKeyFromBytes (b : List Nat) : Option (List Nat) :=
  if b.length = 32 then some b else none

/-- Modelled from the spec: `expand_to_keypair` — fixed deterministic
derivation of the long-term keypair from a 32-byte seed. -/
def expandToKeypair (q : Nat) [NeZero q] (seed : List Nat) : Keypair q :=
  let sk : ZMod q := (bytesToNatLE seed : ZMod q)
  ⟨sk, seed, sk * basepoint q⟩

/-- `wasm_keypair_from_secret` (src/olaf/src/lib.rs:19-29): reject inputs that
are not exactly 32 bytes, decode the secret seed, expand it to a keypair and
return the keypair bytes. -/
def wasmKeypairFromSecret (q : Nat) [NeZero q] (secretKeyBytes : List Nat) :
    Except String (List Nat) :=
  if secretKeyBytes.length ≠ 32 then .error "invalid secret key length"
  else
    match miniSecretKeyFromBytes secretKeyBytes with
    | none => .error "invalid secret key bytes"
    | some seed => .ok (expandToKeypair q seed).toBytes

/-- `PublicKey::from_bytes` on one 32-byte chunk. -/
def publicKeyFromBytes (q : Nat) [NeZero q] (b : List Nat) : Option (ZMod q) :=
  fullRead (readScalar q) b

/-- Split a byte string into its consecutive 32-byte public-key chunks. -/
def chunksOf32 (b : List Nat) : List (List Nat) :=
  (List.range (b.length / 32)).map (fun i => (b.drop (32 * i)).take 32)

/-- `wasm_simplpedpop_contribute_all` (src/olaf/src/lib.rs:31-59): validate the
keypair length and that the recipient bytes are a whole number of public keys,
decode them, run the contribution and return the message bytes. -/
def wasmSimplpedpopContributeAll (q : Nat) [NeZero q] (hsig : List Nat → ZMod q)
    (henc : ZMod q → List Nat → ZMod q) (rng : Nat → ZMod q)
    (keypairBytes : List Nat) (threshold : Nat) (recipientsConcat : List Nat) :
    Except String (List Nat) :=
  if keypairBytes.length ≠ KEYPAIR_LENGTH then .error "invalid keypair length"
  else if recipientsConcat.length % PUBLIC_KEY_LENGTH ≠ 0 then
    .error "invalid recipients bytes length"
  else
    match Keypair.fromBytes q keypairBytes with
    | none => .error "invalid keypair bytes"
    | some kp =>
      match (chunksOf32 recipientsConcat).mapM (publicKeyFromBytes q) with
      | none => .error "invalid public key bytes"
      | some recipients =>
        match simplpedpopContributeAll hsig henc kp threshold recipients rng with
        | .error e => .error e
        | .ok msg => .ok msg.toBytes

/-- `wasm_simplpedpop_recipient_all` (src/olaf/src/lib.rs:62-132): validate and
decode the keypair, parse the batch of contribution messages, decode each
`AllMessage`, recombine, and return (threshold public key bytes,
`SPPOutputMessage` bytes, `SigningKeypair` bytes). -/
def wasmSimplpedpopRecipientAll (q : Nat) [NeZero q] (hsig : List Nat → ZMod q)
    (henc : ZMod q → List Nat → ZMod q)
    (keypairBytes allMessagesConcat : List Nat) :
    Except String (List Nat × List Nat × List Nat) :=
  if keypairBytes.length ≠ KEYPAIR_LENGTH then .error "invalid keypair length"
  else
    match Keypair.fromBytes q keypairBytes with
    | none => .error "invalid keypair bytes"
    | some kp =>
      match parseBatch allMessagesConcat with
      | none => .error "Failed to deserialize all_messages data"
      | some chunks =>
        match chunks.mapM (AllMessage.fromBytes q) with
        | none => .error "Failed to parse AllMessage"
        | some msgs =>
          match recombine hsig henc kp msgs with
          | .error e => .error ("Failed to process AllMessages: " ++ e)
          | .ok (outMsg, skp) =>
            .ok (scalarToBytes outMsg.output.thresholdPublicKey,
              outMsg.toBytes, skp.toBytes)

/-- `wasm_threshold_sign_round1` (src/olaf/src/lib.rs:134-171): decode the
signing share, commit, and return the nonces bytes and commitments bytes. -/
def wasmThresholdSignRound1 (q : Nat) [NeZero q] (rng : Nat → ZMod q)
    (signingShareBytes : List Nat) : Except String (List Nat × List Nat) :=
  match SigningKeypair.fromBytes q signingShareBytes with
  | none => .error "Failed to parse signing share"
  | some kp =>
    .ok ((commit kp rng).1.toBytes, (commit kp rng).2.toBytes)

/-- `wasm_threshold_sign_round2` (src/olaf/src/lib.rs:174-225): decode the
signing share, the nonces, the batch of signing commitments and the generation
output, run the round-2 signing and return the signing-package bytes. -/
def wasmThresholdSignRound2 (q : Nat) [Fact q.Prime]
    (hbf : List Nat → List Nat → List (SigningCommitments q) → ZMod q → ZMod q)
    (hch : ZMod q → ZMod q → List Nat → List Nat → ZMod q)
    (signingShareBytes signingNoncesBytes signingCommitmentsBytes
      generationOutputBytes payloadBytes contextBytes : List Nat) :
    Except String (List Nat) :=
  match SigningKeypair.fromBytes q signingShareBytes with
  | none => .error "Failed to parse signing share"
  | some share =>
    match SigningNonces.fromBytes q signingNoncesBytes with
    | none => .error "Failed to parse signing nonces"
    | some nonces =>
      match parseBatch signingCommitmentsBytes with
      | none => .error "Failed to deserialize signing commitments"
      | some chunks =>
        match chunks.mapM (SigningCommitments.fromBytes q) with
        | none => .error "Failed to parse SigningCommitments"
        | some comms =>
          match SppOutputMessage.fromBytes q generationOutputBytes with
          | none => .error "Failed to parse generation output"
          | some genOut =>
            match sign hbf hch contextBytes payloadBytes genOut.output comms
                share nonces with
            | .error e => .error ("Failed to create signing package: " ++ e)
            | .ok pkg => .ok pkg.toBytes

/-- `wasm_aggregate_threshold_signature` (src/olaf/src/lib.rs:228-255): parse
the batch of signing packages, decode each one, aggregate, and return the
group-signature bytes. -/
def wasmAggregateThresholdSignature (q : Nat) [NeZero q]
    (hbf : List Nat → List Nat → List (SigningCommitments q) → ZMod q → ZMod q)
    (signingPackagesBytes : List Nat) : Except String (List Nat) :=
  match parseBatch signingPackagesBytes with
  | none => .error "Failed to deserialize signing packages"
  | some chunks =>
    match chunks.mapM (SigningPackage.fromBytes q) with
    | none => .error "Failed to parse SigningPackage"
    | some pkgs =>
      match aggregate hbf pkgs with
      | .error e => .error ("Failed to aggregate threshold signature: " ++ e)
      | .ok sg => .ok sg.toBytes

/-! ## Polynomial and Lagrange interpolation lemmas -/

noncomputable def listToPoly {q : Nat} (coeffs : List (ZMod q)) : Polynomial (ZMod q) :=
  coeffs.foldr (fun a p => Polynomial.C a + Polynomial.X * p) 0

theorem listToPoly_nil {q : Nat} : listToPoly ([] : List (ZMod q)) = 0 := rfl

theorem listToPoly_cons {q : Nat} (a : ZMod q) (cs : List (ZMod q)) :
    listToPoly (a :: cs) = Polynomial.C a + Polynomial.X * listToPoly cs := rfl

theorem listToPoly_coeff {q : Nat} (coeffs : List (ZMod q)) (m : Nat) :
    (listToPoly coeffs).coeff m = coeffs.getD m 0 := by
  induction coeffs generalizing m with
  | nil => simp [listToPoly_nil]
  | cons a cs ih =>
      cases m with
      | zero => simp [listToPoly_cons, Polynomial.coeff_X_mul_zero]
      | succ m => simp [listToPoly_cons, Polynomial.coeff_X_mul, ih]

theorem evalPoly_nil {q : Nat} (x : ZMod q) : evalPoly [] x = 0 := rfl

theorem evalPoly_cons {q : Nat} (a : ZMod q) (cs : List (ZMod q)) (x : ZMod q) :
    evalPoly (a :: cs) x = a + x * evalPoly cs x := rfl

theorem evalPoly_eq {q : Nat} (coeffs : List (ZMod q)) (x : ZMod q) :
    evalPoly coeffs x = (listToPoly coeffs).eval x := by
  induction coeffs with
  | nil => simp [evalPoly_nil, listToPoly_nil]
  | cons a cs ih => simp [evalPoly_cons, listToPoly_cons, ih]

theorem listToPoly_degree_lt {q : Nat} [Fact q.Prime] (coeffs : List (ZMod q)) :
    (listToPoly coeffs).degree < (coeffs.length : Nat) := by
  rw [Polynomial.degree_lt_iff_coeff_zero]
  intro m hm
  rw [listToPoly_coeff]
  exact List.getD_eq_default _ _ (by exact_mod_cast hm)

theorem zmodInv_eq_inv_of_ne {q : Nat} [Fact q.Prime] (x : ZMod q)
    (hx : x ≠ 0) : zmodInv q x = x⁻¹ := by
  have h2 : x * x ^ (q - 2) = 1 := by
    have hq2 : 2 ≤ q := (Fact.out : q.Prime).two_le
    have hstep : q - 2 + 1 = q - 1 := by omega
    calc x * x ^ (q - 2) = x ^ (q - 2 + 1) := (pow_succ' x (q - 2)).symm
      _ = x ^ (q - 1) := by rw [hstep]
      _ = 1 := ZMod.pow_card_sub_one_eq_one hx
  exact ((inv_eq_of_mul_eq_one_right h2).symm : x ^ (q - 2) = x⁻¹)

theorem inv_mul_zero_sub_eq_div {F : Type} [Field F] (x y : F) (h : x ≠ y) :
    (x - y)⁻¹ * (0 - y) = y * (y - x)⁻¹ := by
  have h1 : x - y ≠ 0 := sub_ne_zero.mpr h
  have h2 : y - x ≠ 0 := sub_ne_zero.mpr (Ne.symm h)
  field_simp
  ring

theorem sum_lagrangeAtZero_mul {q : Nat} [Fact q.Prime] (ids : List (ZMod q))
    (hnd : ids.Nodup) (coeffs : List (ZMod q)) (hlen : coeffs.length ≤ ids.length) :
    ∑ i ∈ Finset.range ids.length,
      lagrangeAtZero ids i * evalPoly coeffs (ids.getD i 0) = evalPoly coeffs 0 := by
  classical
  have hinj : Set.InjOn (fun j => ids.getD j 0) ↑(Finset.range ids.length) := by
    intro a ha b hb hab
    rw [Finset.coe_range, Set.mem_Iio] at ha hb
    have hga : ids.getD a 0 = ids.get ⟨a, ha⟩ := List.getD_eq_getElem ids 0 ha
    have hgb : ids.getD b 0 = ids.get ⟨b, hb⟩ := List.getD_eq_getElem ids 0 hb
    have : ids.get ⟨a, ha⟩ = ids.get ⟨b, hb⟩ := by
      rw [← hga, ← hgb]
      simpa using hab
    exact congrArg Fin.val (List.nodup_iff_injective_get.mp hnd this)
  have hdeg : (listToPoly coeffs).degree < ((Finset.range ids.length).card : Nat) := by
    rw [Finset.card_range]
    exact lt_of_lt_of_le (listToPoly_degree_lt coeffs) (by exact_mod_cast hlen)
  have key := Lagrange.eq_interpolate (v := fun j => ids.getD j 0) hinj hdeg
  have keyev := congrArg (Polynomial.eval 0) key
  rw [Lagrange.interpolate_apply, Polynomial.eval_finset_sum] at keyev
  rw [evalPoly_eq coeffs 0, keyev]
  apply Finset.sum_congr rfl
  intro i hi
  rw [Polynomial.eval_mul, Polynomial.eval_C]
  rw [mul_comm (lagrangeAtZero ids i)]
  congr 1
  · rw [evalPoly_eq]
  · rw [Lagrange.basis, Polynomial.eval_prod, lagrangeAtZero]
    apply Finset.prod_congr rfl
    intro j hj
    have hji : j ≠ i := (Finset.mem_erase.mp hj).1
    have hjr : j ∈ Finset.range ids.length := (Finset.mem_erase.mp hj).2
    have hne : ids.getD i 0 ≠ ids.getD j 0 := by
      intro hcon
      exact hji (hinj (by simpa using hjr) (by simpa using hi) hcon.symm)
    rw [Lagrange.basisDivisor]
    rw [Polynomial.eval_mul, Polynomial.eval_C, Polynomial.eval_sub,
      Polynomial.eval_X, Polynomial.eval_C]
    rw [zmodInv_eq_inv_of_ne _ (sub_ne_zero.mpr (Ne.symm hne))]
    exact (inv_mul_zero_sub_eq_div _ _ hne).symm

/-- A mapped list sum as a sum over the index range. -/
theorem sum_map_eq_sum_range {α : Type} {M : Type} [AddCommMonoid M]
    (l : List α) (f : α → M) (d : α) :
    (l.map f).sum = ∑ i ∈ Finset.range l.length, f (l.getD i d) := by
  induction l with
  | nil => simp
  | cons x xs ih =>
      rw [List.map_cons, List.sum_cons, List.length_cons, Finset.sum_range_succ']
      simp [ih, add_comm]

/-- In a commitment list with pairwise distinct identifiers, searching for the
`i`-th entry's identifier finds exactly index `i`. -/
theorem findIdx_comms_self {q : Nat} (comms : List (SigningCommitments q))
    (hnd : (comms.map (fun c => c.id)).Nodup) (i : Nat) (hi : i < comms.length) :
    comms.findIdx (fun c => c.id == (comms.get ⟨i, hi⟩).id) = i := by
  induction comms generalizing i with
  | nil => simp at hi
  | cons c cs ih =>
      rw [List.map_cons, List.nodup_cons] at hnd
      cases i with
      | zero => simp [List.findIdx_cons]
      | succ i =>
          have hi' : i < cs.length := by simpa using hi
          have hmem : (cs.get ⟨i, hi'⟩).id ∈ cs.map (fun c => c.id) :=
            List.mem_map.mpr ⟨cs.get ⟨i, hi'⟩, List.get_mem _ _ _, rfl⟩
          have hne : (c.id == (cs.get ⟨i, hi'⟩).id) = false := by
            rw [beq_eq_false_iff_ne]
            intro hcon
            exact hnd.1 (hcon ▸ hmem)
          rw [List.findIdx_cons]
          simp only [List.get_cons_succ] at hne ⊢
          rw [hne]
          simpa using ih hnd.2 i hi'

/-- Default (zeroed) values used as `getD` fall-backs. -/
def scDefault (q : Nat) : SigningCommitments q := ⟨0, 0, 0⟩

def snDefault (q : Nat) : SigningNonces q := ⟨0, 0⟩

def skDefault (q : Nat) : SigningKeypair q := ⟨0, 0, 0⟩

def sppDefault (q : Nat) : SppOutput q := ⟨⟨0, 0⟩, 0, []⟩

def spDefault (q : Nat) : SigningPackage q := ⟨⟨[], [], [], sppDefault q⟩, 0, 0⟩

/-- Evaluation of `sign` when the signer's identifier sits at index `i` of a
commitment set with pairwise distinct identifiers. -/
theorem sign_ok_eval {q : Nat} [Fact q.Prime]
    (hbf : List Nat → List Nat → List (SigningCommitments q) → ZMod q → ZMod q)
    (hch : ZMod q → ZMod q → List Nat → List Nat → ZMod q)
    (ctx msg : List Nat) (spp : SppOutput q)
    (comms : List (SigningCommitments q))
    (hnd : (comms.map (fun c => c.id)).Nodup)
    (i : Nat) (hi : i < comms.length) (kp : SigningKeypair q)
    (nonces : SigningNonces q) (hkp : kp.id = (comms.get ⟨i, hi⟩).id) :
    sign hbf hch ctx msg spp comms kp nonces =
      .ok ⟨⟨ctx, msg, comms, spp⟩, kp.id,
        nonces.hid + hbf ctx msg comms kp.id * nonces.bnd +
          hch (groupCommitment hbf ⟨ctx, msg, comms, spp⟩)
              spp.thresholdPublicKey ctx msg *
            lagrangeAtZero (comms.map (fun x => x.id)) i * kp.secret⟩ := by
  have hfind : comms.findIdx (fun c => c.id == kp.id) = i := by
    rw [hkp]
    exact findIdx_comms_self comms hnd i hi
  rw [sign, hfind, if_pos hi]

/-- C2: Threshold signing correctness — for every set of at least `threshold`
signing packages produced by round-2 signing (`wasm_threshold_sign_round2`'s
core `sign`) by distinct valid signers over the same (context, message,
commitment set) derived from a successful DKG (shares lying on the group
polynomial whose constant term is the threshold public key), the group
signature returned by aggregation verifies under standard single-key Schnorr
verification (`verify_simple`) against the threshold public key for that
(context, message). -/
theorem threshold_signing_correctness {q : Nat} [Fact q.Prime]
    (hbf : List Nat → List Nat → List (SigningCommitments q) → ZMod q → ZMod q)
    (hch : ZMod q → ZMod q → List Nat → List Nat → ZMod q)
    (ctx msg : List Nat) (coeffs : List (ZMod q))
    (kps : List (SigningKeypair q)) (nss : List (SigningNonces q))
    (comms : List (SigningCommitments q)) (pkgs : List (SigningPackage q))
    (spp : SppOutput q)
    (hl1 : nss.length = kps.length) (hl2 : comms.length = kps.length)
    (hl3 : pkgs.length = kps.length)
    (hcm : ∀ i, i < kps.length → comms.getD i (scDefault q) =
      ⟨(kps.getD i (skDefault q)).id, (nss.getD i (snDefault q)).hid,
        (nss.getD i (snDefault q)).bnd⟩)
    (hnd : (comms.map (fun c => c.id)).Nodup)
    (hshare : ∀ i, i < kps.length → (kps.getD i (skDefault q)).secret =
      evalPoly coeffs (kps.getD i (skDefault q)).id)
    (htpk : spp.thresholdPublicKey = evalPoly coeffs 0)
    (hdeg : coeffs.length ≤ kps.length)
    (hthr : spp.params.threshold ≤ kps.length)
    (hthr1 : 1 ≤ spp.params.threshold)
    (hsg : ∀ i, i < kps.length →
      sign hbf hch ctx msg spp comms (kps.getD i (skDefault q))
        (nss.getD i (snDefault q)) = .ok (pkgs.getD i (spDefault q))) :
    ∃ sig, aggregate hbf pkgs = .ok sig ∧
      verifySimple hch spp.thresholdPublicKey ctx msg sig = true := by
  have hpkg : ∀ i, i < kps.length → pkgs.getD i (spDefault q) =
      ⟨⟨ctx, msg, comms, spp⟩, (kps.getD i (skDefault q)).id,
        (nss.getD i (snDefault q)).hid +
          hbf ctx msg comms (kps.getD i (skDefault q)).id *
            (nss.getD i (snDefault q)).bnd +
          hch (groupCommitment hbf ⟨ctx, msg, comms, spp⟩)
              spp.thresholdPublicKey ctx msg *
            lagrangeAtZero (comms.map (fun x => x.id)) i *
            (kps.getD i (skDefault q)).secret⟩ := by
    intro i hi
    have hic : i < comms.length := by omega
    have hkpid : (kps.getD i (skDefault q)).id = (comms.get ⟨i, hic⟩).id := by
      have hc := hcm i hi
      rw [List.getD_eq_getElem _ _ hic] at hc
      rw [List.get_eq_getElem, hc]
    have hev := sign_ok_eval hbf hch ctx msg spp comms hnd i hic
      (kps.getD i (skDefault q)) (nss.getD i (snDefault q)) hkpid
    have h2 := hsg i hi
    rw [hev] at h2
    exact (Except.ok.inj h2).symm
  have hlen_pos : 0 < pkgs.length := by omega
  obtain ⟨p0, rest, hp⟩ : ∃ p0 rest, pkgs = p0 :: rest := by
    cases pkgs with
    | nil => simp at hlen_pos
    | cons a l => exact ⟨a, l, rfl⟩
  have hc0 : p0.common = (⟨ctx, msg, comms, spp⟩ : CommonData q) := by
    have h0 := hpkg 0 (by omega)
    rw [hp] at h0
    simp only [List.getD_cons_zero] at h0
    rw [h0]
  have hcommon : ∀ x ∈ rest, x.common = (⟨ctx, msg, comms, spp⟩ : CommonData q) := by
    intro x hx
    obtain ⟨j, hj⟩ := List.mem_iff_get.mp hx
    have hj1 : (j : Nat) + 1 < kps.length := by
      have := j.isLt
      have hlr : pkgs.length = rest.length + 1 := by rw [hp]; rfl
      omega
    have hxe : x = pkgs.getD ((j : Nat) + 1) (spDefault q) := by
      rw [hp, List.getD_cons_succ, List.getD_eq_getElem _ _ j.isLt, ← hj,
        List.get_eq_getElem]
    rw [hxe, hpkg _ hj1]
  have hagg : aggregate hbf pkgs =
      .ok ⟨groupCommitment hbf ⟨ctx, msg, comms, spp⟩,
        (pkgs.map (fun x => x.z)).sum⟩ := by
    rw [hp]
    simp only [aggregate]
    have hno : ¬ (rest.length + 1 < p0.common.spp.params.threshold) := by
      rw [hc0]
      have hlr : pkgs.length = rest.length + 1 := by rw [hp]; rfl
      simp only []
      omega
    rw [if_neg hno]
    have hall : rest.all (fun x => x.common == p0.common) = true := by
      rw [List.all_eq_true]
      intro x hx
      rw [beq_iff_eq, hcommon x hx, hc0]
    rw [hc0] at hall
    rw [hc0, if_pos hall]
  refine ⟨_, hagg, ?_⟩
  rw [verifySimple]
  simp only [beq_iff_eq, basepoint, mul_one]
  have hidlen : (comms.map (fun x => x.id)).length = kps.length := by
    simp [hl2]
  have hidsi : ∀ i, i < kps.length →
      (comms.map (fun x => x.id)).getD i 0 = (kps.getD i (skDefault q)).id := by
    intro i hi
    have hic : i < comms.length := by omega
    have him : i < (comms.map (fun x => x.id)).length := by omega
    rw [List.getD_eq_getElem _ _ him, List.getElem_map,
      ← List.getD_eq_getElem _ (scDefault q) hic, hcm i hi]
  have hz : (pkgs.map (fun x => x.z)).sum =
      groupCommitment hbf ⟨ctx, msg, comms, spp⟩ +
        hch (groupCommitment hbf ⟨ctx, msg, comms, spp⟩)
            spp.thresholdPublicKey ctx msg * spp.thresholdPublicKey := by
    rw [sum_map_eq_sum_range pkgs (fun x => x.z) (spDefault q), hl3]
    have hsum1 : ∑ i ∈ Finset.range kps.length, (pkgs.getD i (spDefault q)).z =
        ∑ i ∈ Finset.range kps.length,
          ((nss.getD i (snDefault q)).hid +
            hbf ctx msg comms (kps.getD i (skDefault q)).id *
              (nss.getD i (snDefault q)).bnd +
           hch (groupCommitment hbf ⟨ctx, msg, comms, spp⟩)
               spp.thresholdPublicKey ctx msg *
             (lagrangeAtZero (comms.map (fun x => x.id)) i *
               evalPoly coeffs ((comms.map (fun x => x.id)).getD i 0))) := by
      apply Finset.sum_congr rfl
      intro i hi
      have hi' := Finset.mem_range.mp hi
      rw [hpkg i hi']
      rw [hshare i hi', ← hidsi i hi']
      ring
    rw [hsum1, Finset.sum_add_distrib, ← Finset.mul_sum]
    have hlag := sum_lagrangeAtZero_mul (comms.map (fun x => x.id)) hnd coeffs
      (by omega)
    rw [hidlen] at hlag
    rw [hlag, ← htpk]
    congr 1
    rw [groupCommitment]
    simp only []
    rw [sum_map_eq_sum_range comms _ (scDefault q), hl2]
    apply Finset.sum_congr rfl
    intro i hi
    rw [hcm i (Finset.mem_range.mp hi)]
  rw [hz]

instance : Fact (Nat.Prime 7) := ⟨by norm_num⟩

deriving instance DecidableEq for Except

/-- Witness for C2: a concrete 2-of-2 signing session over `ZMod 7` in which
both signing packages aggregate to a group signature that passes
`verify_simple` against the threshold public key. -/
theorem threshold_signing_correctness_witness :
    ∃ sig, aggregate (q := 7) (fun _ _ _ _ => 0)
        [⟨⟨[0], [1], [⟨1, 1, 2⟩, ⟨2, 3, 4⟩], ⟨⟨2, 2⟩, 3, [(1, 5), (2, 0)]⟩⟩, 1, 4⟩,
         ⟨⟨[0], [1], [⟨1, 1, 2⟩, ⟨2, 3, 4⟩], ⟨⟨2, 2⟩, 3, [(1, 5), (2, 0)]⟩⟩, 2, 3⟩] =
          .ok sig ∧
      verifySimple (fun _ _ _ _ => 1) 3 [0] [1] sig = true :=
  threshold_signing_correctness (q := 7) (fun _ _ _ _ => 0) (fun _ _ _ _ => 1)
    [0] [1] [3, 2]
    [⟨1, 5, 5⟩, ⟨2, 0, 0⟩] [⟨1, 2⟩, ⟨3, 4⟩]
    [⟨1, 1, 2⟩, ⟨2, 3, 4⟩]
    [⟨⟨[0], [1], [⟨1, 1, 2⟩, ⟨2, 3, 4⟩], ⟨⟨2, 2⟩, 3, [(1, 5), (2, 0)]⟩⟩, 1, 4⟩,
     ⟨⟨[0], [1], [⟨1, 1, 2⟩, ⟨2, 3, 4⟩], ⟨⟨2, 2⟩, 3, [(1, 5), (2, 0)]⟩⟩, 2, 3⟩]
    ⟨⟨2, 2⟩, 3, [(1, 5), (2, 0)]⟩
    (by decide) (by decide) (by decide) (by decide) (by decide) (by decide)
    (by decide) (by decide) (by decide) (by decide) (by decide)

/-- A generic `Except` value is `ok` or `error`. -/
theorem except_ok_or_error {ε α : Type} (x : Except ε α) :
    (∃ v, x = .ok v) ∨ (∃ e, x = .error e) := by
  cases x with
  | error e => exact Or.inr ⟨e, rfl⟩
  | ok v => exact Or.inl ⟨v, rfl⟩

/-- C3: Insufficient-signer rejection — aggregation of fewer than `threshold`
signing packages (the threshold being the one carried by the packages' DKG
output), and aggregation of no packages at all, fails with the fatal
`InsufficientShares` error and produces no group signature. -/
theorem insufficient_shares_rejection {q : Nat} [NeZero q]
    (hbf : List Nat → List Nat → List (SigningCommitments q) → ZMod q → ZMod q) :
    aggregate hbf ([] : List (SigningPackage q)) = .error "InsufficientShares" ∧
    ∀ pkgs : List (SigningPackage q), pkgs ≠ [] →
      pkgs.length < (pkgs.headD (spDefault q)).common.spp.params.threshold →
      aggregate hbf pkgs = .error "InsufficientShares" := by
  refine ⟨rfl, ?_⟩
  intro pkgs hne hlt
  cases pkgs with
  | nil => exact absurd rfl hne
  | cons p rest =>
      rw [aggregate]
      rw [if_pos (by simpa using hlt)]

/-- Witness for C3: with threshold 2, aggregating a single otherwise-valid
signing package (t − 1 = 1 of them) fails with `InsufficientShares`. -/
theorem insufficient_shares_rejection_witness :
    aggregate (q := 7) (fun _ _ _ _ => 0)
      [⟨⟨[0], [1], [⟨1, 1, 2⟩, ⟨2, 3, 4⟩], ⟨⟨2, 2⟩, 3, [(1, 5), (2, 0)]⟩⟩, 1, 4⟩] =
      .error "InsufficientShares" :=
  (insufficient_shares_rejection (q := 7) (fun _ _ _ _ => 0)).2
    [⟨⟨[0], [1], [⟨1, 1, 2⟩, ⟨2, 3, 4⟩], ⟨⟨2, 2⟩, 3, [(1, 5), (2, 0)]⟩⟩, 1, 4⟩]
    (by decide) (by decide)

/-- C4: Aggregation determinism — `wasm_aggregate_threshold_signature` is a
pure function of its input byte string: two invocations on identical
signing-package bytes return byte-identical group-signature bytes. -/
theorem aggregation_deterministic {q : Nat} [NeZero q]
    (hbf : List Nat → List Nat → List (SigningCommitments q) → ZMod q → ZMod q)
    (b1 b2 : List Nat) (h : b1 = b2) :
    wasmAggregateThresholdSignature q hbf b1 =
      wasmAggregateThresholdSignature q hbf b2 := by
  rw [h]

/-- Witness for C4 at a concrete input. -/
theorem aggregation_deterministic_witness :
    wasmAggregateThresholdSignature 7 (fun _ _ _ _ => 0) [1, 2, 3] =
      wasmAggregateThresholdSignature 7 (fun _ _ _ _ => 0) [1, 2, 3] :=
  aggregation_deterministic (q := 7) (fun _ _ _ _ => 0) [1, 2, 3] [1, 2, 3] rfl

/-- C9: Seed-length contract of `wasm_keypair_from_secret` — it returns a
derived keypair byte string exactly when its input is 32 bytes long and decodes
as a secret key, and every input of any other length gets the error
`"invalid secret key length"`. -/
theorem keypair_from_secret_contract {q : Nat} [NeZero q] (b : List Nat) :
    ((∃ k, wasmKeypairFromSecret q b = .ok k) ↔
      b.length = 32 ∧ (miniSecretKeyFromBytes b).isSome) ∧
    (b.length ≠ 32 →
      wasmKeypairFromSecret q b = .error "invalid secret key length") := by
  constructor
  · constructor
    · intro hk
      by_cases hlen : b.length = 32
      · exact ⟨hlen, by simp [miniSecretKeyFromBytes, hlen]⟩
      · obtain ⟨k, hk⟩ := hk
        rw [wasmKeypairFromSecret, if_pos hlen] at hk
        exact absurd hk (by simp)
    · rintro ⟨hlen, -⟩
      refine ⟨(expandToKeypair q b).toBytes, ?_⟩
      rw [wasmKeypairFromSecret, if_neg (by simp [hlen])]
      simp [miniSecretKeyFromBytes, hlen]
  · intro hlen
    rw [wasmKeypairFromSecret, if_pos hlen]

/-- Witness for C9: a 32-byte seed yields a keypair, an empty input gets the
length error. -/
theorem keypair_from_secret_contract_witness :
    (∃ k, wasmKeypairFromSecret 7 (List.replicate 32 1) = .ok k) ∧
    wasmKeypairFromSecret 7 [] = .error "invalid secret key length" :=
  ⟨(keypair_from_secret_contract (q := 7) (List.replicate 32 1)).1.mpr
      (by decide),
    (keypair_from_secret_contract (q := 7) []).2 (by decide)⟩

/-- C10: Totality of the public interface — every exported wasm function, on
every input byte string, returns either an `ok` result or a descriptive
`error`; every decode/parse/protocol failure is mapped into the error branch
(the embedding is a total function — there is no panic path). -/
theorem wasm_interface_total {q : Nat} [Fact q.Prime]
    (hsig : List Nat → ZMod q) (henc : ZMod q → List Nat → ZMod q)
    (hbf : List Nat → List Nat → List (SigningCommitments q) → ZMod q → ZMod q)
    (hch : ZMod q → ZMod q → List Nat → List Nat → ZMod q)
    (rng : Nat → ZMod q) :
    (∀ b, (∃ v, wasmKeypairFromSecret q b = .ok v) ∨
      (∃ e, wasmKeypairFromSecret q b = .error e)) ∧
    (∀ kb t rc, (∃ v, wasmSimplpedpopContributeAll q hsig henc rng kb t rc = .ok v) ∨
      (∃ e, wasmSimplpedpopContributeAll q hsig henc rng kb t rc = .error e)) ∧
    (∀ kb mc, (∃ v, wasmSimplpedpopRecipientAll q hsig henc kb mc = .ok v) ∨
      (∃ e, wasmSimplpedpopRecipientAll q hsig henc kb mc = .error e)) ∧
    (∀ sb, (∃ v, wasmThresholdSignRound1 q rng sb = .ok v) ∨
      (∃ e, wasmThresholdSignRound1 q rng sb = .error e)) ∧
    (∀ a b c d e f,
      (∃ v, wasmThresholdSignRound2 q hbf hch a b c d e f = .ok v) ∨
      (∃ er, wasmThresholdSignRound2 q hbf hch a b c d e f = .error er)) ∧
    (∀ pb, (∃ v, wasmAggregateThresholdSignature q hbf pb = .ok v) ∨
      (∃ e, wasmAggregateThresholdSignature q hbf pb = .error e)) :=
  ⟨fun _ => except_ok_or_error _, fun _ _ _ => except_ok_or_error _,
    fun _ _ => except_ok_or_error _, fun _ => except_ok_or_error _,
    fun _ _ _ _ _ _ => except_ok_or_error _, fun _ => except_ok_or_error _⟩

/-- Witness for C10: the six exported functions, each on a concrete arbitrary
input, land in the `ok`-or-`error` disjunction. -/
theorem wasm_interface_total_witness :
    ((∃ v, wasmKeypairFromSecret 7 [5] = .ok v) ∨
      (∃ e, wasmKeypairFromSecret 7 [5] = .error e)) ∧
    ((∃ v, wasmSimplpedpopContributeAll 7 (fun _ => 0) (fun _ _ => 0)
        (fun _ => 0) [1] 2 [2] = .ok v) ∨
      (∃ e, wasmSimplpedpopContributeAll 7 (fun _ => 0) (fun _ _ => 0)
        (fun _ => 0) [1] 2 [2] = .error e)) ∧
    ((∃ v, wasmSimplpedpopRecipientAll 7 (fun _ => 0) (fun _ _ => 0)
        [1] [2] = .ok v) ∨
      (∃ e, wasmSimplpedpopRecipientAll 7 (fun _ => 0) (fun _ _ => 0)
        [1] [2] = .error e)) ∧
    ((∃ v, wasmThresholdSignRound1 7 (fun _ => 0) [3] = .ok v) ∨
      (∃ e, wasmThresholdSignRound1 7 (fun _ => 0) [3] = .error e)) ∧
    ((∃ v, wasmThresholdSignRound2 7 (fun _ _ _ _ => 0) (fun _ _ _ _ => 0)
        [1] [2] [3] [4] [5] [6] = .ok v) ∨
      (∃ er, wasmThresholdSignRound2 7 (fun _ _ _ _ => 0) (fun _ _ _ _ => 0)
        [1] [2] [3] [4] [5] [6] = .error er)) ∧
    ((∃ v, wasmAggregateThresholdSignature 7 (fun _ _ _ _ => 0) [9] = .ok v) ∨
      (∃ e, wasmAggregateThresholdSignature 7 (fun _ _ _ _ => 0) [9] = .error e)) := by
  have h := wasm_interface_total (q := 7) (fun _ => 0) (fun _ _ => 0)
    (fun _ _ _ _ => 0) (fun _ _ _ _ => 0) (fun _ => 0)
  exact ⟨h.1 [5], h.2.1 [1] 2 [2], h.2.2.1 [1] [2], h.2.2.2.1 [3],
    h.2.2.2.2.1 [1] [2] [3] [4] [5] [6], h.2.2.2.2.2 [9]⟩

/-- Splitting the concatenation of 32-byte chunks recovers the chunks. -/
theorem chunksOf32_flatten (parts : List (List Nat))
    (h : ∀ p ∈ parts, p.length = 32) : chunksOf32 parts.flatten = parts := by
  induction parts with
  | nil => rfl
  | cons p ps ih =>
      have hp : p.length = 32 := h p (by simp)
      have hlen : (p :: ps).flatten.length = 32 + ps.flatten.length := by
        simp [hp]
      have hdiv : (p :: ps).flatten.length / 32 = ps.flatten.length / 32 + 1 := by
        rw [hlen, Nat.add_comm, Nat.add_div_right _ (by norm_num)]
      rw [chunksOf32, hdiv, List.range_succ_eq_map, List.map_cons]
      have h0 : ((p :: ps).flatten.drop (32 * 0)).take 32 = p := by
        simp only [Nat.mul_zero, List.drop_zero, List.flatten_cons]
        exact List.take_left' hp
      rw [h0, List.map_map]
      have hrest : ∀ i, ((p :: ps).flatten.drop (32 * Nat.succ i)).take 32 =
          ((ps.flatten.drop (32 * i)).take 32) := by
        intro i
        have : 32 * Nat.succ i = 32 + 32 * i := by omega
        rw [this, List.flatten_cons, ← List.drop_drop, List.drop_left' hp]
      have : (List.range (ps.flatten.length / 32)).map
            ((fun i => ((p :: ps).flatten.drop (32 * i)).take 32) ∘ Nat.succ) =
          (List.range (ps.flatten.length / 32)).map
            (fun i => (ps.flatten.drop (32 * i)).take 32) :=
        List.map_congr_left (fun i _ => hrest i)
      rw [this]
      have := ih (fun x hx => h x (by simp [hx]))
      rw [chunksOf32] at this
      rw [this]

/-- `mapM` of a pointwise-invertible decoder over encoded values succeeds. -/
theorem mapM_map_eq_some {α γ : Type} (l : List α) (enc : α → γ)
    (dec : γ → Option α) (h : ∀ x ∈ l, dec (enc x) = some x) :
    (l.map enc).mapM dec = some l := by
  induction l with
  | nil => rfl
  | cons x xs ih =>
      rw [List.map_cons, List.mapM_cons, h x (by simp),
        ih (fun y hy => h y (by simp [hy]))]
      rfl

/-- C8: Contribution-time parameter validation — the contribution operation
(`simplpedpop_contribute_all`, wrapped by `wasm_simplpedpop_contribute_all`)
rejects a threshold that is zero, exceeds the number of recipients, or exceeds
the 16-bit identifier width with `InvalidParameters`; and for a valid keypair,
valid recipient keys and a valid threshold the wasm export returns a
contribution message. -/
theorem contribute_parameter_validation {q : Nat} [NeZero q]
    (hsig : List Nat → ZMod q) (henc : ZMod q → List Nat → ZMod q)
    (rng : Nat → ZMod q) :
    (∀ (kp : Keypair q) (t : Nat) (recipients : List (ZMod q)),
      (t = 0 ∨ recipients.length < t ∨ 256 ^ 2 ≤ t) →
      simplpedpopContributeAll hsig henc kp t recipients rng =
        .error "InvalidParameters") ∧
    (∀ (kp : Keypair q) (t : Nat) (recipients : List (ZMod q)),
      q ≤ 256 ^ 32 → kp.wf → t ≠ 0 → t ≤ recipients.length → t < 256 ^ 2 →
      ∃ bytes, wasmSimplpedpopContributeAll q hsig henc rng kp.toBytes t
        ((recipients.map scalarToBytes).flatten) = .ok bytes) := by
  constructor
  · intro kp t recipients h
    rw [simplpedpopContributeAll, if_pos h]
  · intro kp t recipients hq hw ht0 htle htw
    have hlen : ((recipients.map scalarToBytes).flatten).length =
        32 * recipients.length := by
      rw [List.length_flatten, List.map_map]
      have hc : (List.length ∘ scalarToBytes (q := q)) =
          (fun _ : ZMod q => 32) := by
        funext x
        exact length_scalarToBytes x
      rw [hc, List.map_const', List.sum_replicate, smul_eq_mul, Nat.mul_comm]
    have hchunks : chunksOf32 ((recipients.map scalarToBytes).flatten) =
        recipients.map scalarToBytes :=
      chunksOf32_flatten _ (by
        intro p hp
        obtain ⟨x, -, rfl⟩ := List.mem_map.mp hp
        exact length_scalarToBytes x)
    have hmapm : (recipients.map scalarToBytes).mapM (publicKeyFromBytes q) =
        some recipients :=
      mapM_map_eq_some recipients scalarToBytes (publicKeyFromBytes q)
        (fun x _ => fullRead_of_read_append _ _ _
          (fun r => readScalar_append hq x r))
    rcases hok : simplpedpopContributeAll hsig henc kp t recipients rng
      with e | m
    · rw [simplpedpopContributeAll, if_neg (by omega)] at hok
      exact absurd hok (by simp)
    · refine ⟨m.toBytes, ?_⟩
      rw [wasmSimplpedpopContributeAll,
        if_neg (by rw [length_keypair_toBytes kp hw]; simp),
        if_neg (by rw [hlen]; simp [PUBLIC_KEY_LENGTH, Nat.mul_mod_right]),
        keypair_fromBytes_toBytes hq kp hw, hchunks, hmapm]
      simp only [hok]

/-- Witness for C8: a zero threshold is rejected; a valid 2-of-2 configuration
yields a contribution message. -/
theorem contribute_parameter_validation_witness :
    simplpedpopContributeAll (q := 7) (fun _ => 0) (fun _ _ => 0)
      ⟨1, List.replicate 32 1, 1⟩ 0 [1, 2] (fun _ => 1) =
      .error "InvalidParameters" ∧
    ∃ bytes, wasmSimplpedpopContributeAll 7 (fun _ => 0) (fun _ _ => 0)
      (fun _ => 1) (Keypair.toBytes (q := 7) ⟨1, List.replicate 32 1, 1⟩) 2
      (([1, 2] : List (ZMod 7)).map scalarToBytes).flatten = .ok bytes :=
  ⟨(contribute_parameter_validation (q := 7) (fun _ => 0) (fun _ _ => 0)
      (fun _ => 1)).1 ⟨1, List.replicate 32 1, 1⟩ 0 [1, 2] (by decide),
    (contribute_parameter_validation (q := 7) (fun _ => 0) (fun _ _ => 0)
      (fun _ => 1)).2 ⟨1, List.replicate 32 1, 1⟩ 2 [1, 2] (by norm_num)
      (by decide) (by decide) (by decide) (by decide)⟩

/-- C6: Round-trip — for every protocol message type and every valid value
`x`, `from_bytes (to_bytes x) = some x` (so decoding succeeds and the decoded
value re-serializes to the same bytes); in particular for the `SigningNonces`
and `SigningCommitments` produced by `commit` in round 1.  Validity is the
type's wire invariant (counts fitting the 16-bit widths, 32-byte seed). -/
theorem message_roundtrip {q : Nat} [NeZero q] (hq : q ≤ 256 ^ 32) :
    (∀ n : SigningNonces q, SigningNonces.fromBytes q n.toBytes = some n) ∧
    (∀ c : SigningCommitments q,
      SigningCommitments.fromBytes q c.toBytes = some c) ∧
    (∀ kp : SigningKeypair q, SigningKeypair.fromBytes q kp.toBytes = some kp) ∧
    (∀ s : GroupSignature q, GroupSignature.fromBytes q s.toBytes = some s) ∧
    (∀ kp : Keypair q, kp.wf → Keypair.fromBytes q kp.toBytes = some kp) ∧
    (∀ m : SppOutputMessage q, m.wf →
      SppOutputMessage.fromBytes q m.toBytes = some m) ∧
    (∀ m : AllMessage q, m.wf → AllMessage.fromBytes q m.toBytes = some m) ∧
    (∀ p : SigningPackage q, p.wf →
      SigningPackage.fromBytes q p.toBytes = some p) :=
  ⟨fun n => signingNonces_fromBytes_toBytes hq n,
    fun c => signingCommitments_fromBytes_toBytes hq c,
    fun kp => signingKeypair_fromBytes_toBytes hq kp,
    fun s => groupSignature_fromBytes_toBytes hq s,
    fun kp hw => keypair_fromBytes_toBytes hq kp hw,
    fun m hw => sppOutputMessage_fromBytes_toBytes hq m hw,
    fun m hw => allMessage_fromBytes_toBytes hq m hw,
    fun p hw => signingPackage_fromBytes_toBytes hq p hw⟩

/-- Witness for C6: concrete round trips over `ZMod 7` for every message type,
the nonces and commitments of a concrete `commit` call included. -/
theorem message_roundtrip_witness :
    SigningNonces.fromBytes 7
        (commit (q := 7) ⟨1, 5, 5⟩ (fun i => (i : ZMod 7) + 1)).1.toBytes =
      some (commit (q := 7) ⟨1, 5, 5⟩ (fun i => (i : ZMod 7) + 1)).1 ∧
    SigningCommitments.fromBytes 7
        (commit (q := 7) ⟨1, 5, 5⟩ (fun i => (i : ZMod 7) + 1)).2.toBytes =
      some (commit (q := 7) ⟨1, 5, 5⟩ (fun i => (i : ZMod 7) + 1)).2 ∧
    SigningKeypair.fromBytes 7 (SigningKeypair.toBytes (q := 7) ⟨1, 5, 5⟩) =
      some ⟨1, 5, 5⟩ ∧
    GroupSignature.fromBytes 7 (GroupSignature.toBytes (q := 7) ⟨4, 0⟩) = some ⟨4, 0⟩ ∧
    Keypair.fromBytes 7 (Keypair.toBytes (q := 7) ⟨1, List.replicate 32 1, 1⟩) =
      some ⟨1, List.replicate 32 1, 1⟩ ∧
    SppOutputMessage.fromBytes 7
        (SppOutputMessage.toBytes (q := 7) ⟨5, ⟨⟨2, 2⟩, 3, [(1, 5), (2, 0)]⟩, ⟨0, 0⟩⟩) =
      some ⟨5, ⟨⟨2, 2⟩, 3, [(1, 5), (2, 0)]⟩, ⟨0, 0⟩⟩ ∧
    AllMessage.fromBytes 7
        (AllMessage.toBytes (q := 7) ⟨5, ⟨2, 2⟩, [9], [8], [3, 2], [6, 1], 4, ⟨0, 0⟩, ⟨1, 1⟩⟩) =
      some ⟨5, ⟨2, 2⟩, [9], [8], [3, 2], [6, 1], 4, ⟨0, 0⟩, ⟨1, 1⟩⟩ ∧
    SigningPackage.fromBytes 7
        (SigningPackage.toBytes (q := 7)
          ⟨⟨[0], [1], [⟨1, 1, 2⟩], ⟨⟨2, 2⟩, 3, [(1, 5)]⟩⟩, 1, 4⟩) =
      some ⟨⟨[0], [1], [⟨1, 1, 2⟩], ⟨⟨2, 2⟩, 3, [(1, 5)]⟩⟩, 1, 4⟩ := by
  have h := message_roundtrip (q := 7) (by norm_num)
  exact ⟨h.1 _, h.2.1 _, h.2.2.1 ⟨1, 5, 5⟩, h.2.2.2.1 ⟨4, 0⟩,
    h.2.2.2.2.1 ⟨1, List.replicate 32 1, 1⟩ (by decide),
    h.2.2.2.2.2.1 ⟨5, ⟨⟨2, 2⟩, 3, [(1, 5), (2, 0)]⟩, ⟨0, 0⟩⟩ (by decide),
    h.2.2.2.2.2.2.1 ⟨5, ⟨2, 2⟩, [9], [8], [3, 2], [6, 1], 4, ⟨0, 0⟩, ⟨1, 1⟩⟩
      (by decide),
    h.2.2.2.2.2.2.2 ⟨⟨[0], [1], [⟨1, 1, 2⟩], ⟨⟨2, 2⟩, 3, [(1, 5)]⟩⟩, 1, 4⟩
      (by decide)⟩

/-- C7: Recombination is all-or-nothing — `wasm_simplpedpop_recipient_all`
returns an output exactly when the keypair decodes, the batch parses, every
contribution message decodes and the whole recombination succeeds; a
successful recombination implies every per-contribution check (parameter,
recipient-hash, count, signature and proof-of-possession) passed; and whenever
the success conditions fail the call returns an error and yields no output. -/
theorem recombination_all_or_nothing {q : Nat} [NeZero q]
    (hsig : List Nat → ZMod q) (henc : ZMod q → List Nat → ZMod q)
    (kpBytes batchBytes : List Nat) :
    ((∃ r, wasmSimplpedpopRecipientAll q hsig henc kpBytes batchBytes = .ok r) ↔
      kpBytes.length = KEYPAIR_LENGTH ∧
        ∃ kp chunks msgs out,
          Keypair.fromBytes q kpBytes = some kp ∧
          parseBatch batchBytes = some chunks ∧
          chunks.mapM (AllMessage.fromBytes q) = some msgs ∧
          recombine hsig henc kp msgs = .ok out) ∧
    (∀ (kp : Keypair q) (msgs : List (AllMessage q)) out,
      recombine hsig henc kp msgs = .ok out →
      msgs ≠ [] ∧
      msgs.length = (msgs.headD (defaultAllMessage q)).params.participants ∧
      msgs.all (fun m => m.params == (msgs.headD (defaultAllMessage q)).params) ∧
      msgs.all (fun m => m.recipientsHash ==
        (msgs.headD (defaultAllMessage q)).recipientsHash) ∧
      msgs.all (fun m =>
        m.coeffCommitments.length ==
            (msgs.headD (defaultAllMessage q)).params.threshold &&
          m.encryptedShares.length ==
            (msgs.headD (defaultAllMessage q)).params.participants) ∧
      msgs.all (fun m => schnorrVerify hsig m.senderPk m.signature
        m.contentBytes && schnorrVerify hsig m.senderPk m.pop
        (popMessage m.senderPk))) ∧
    (¬ (kpBytes.length = KEYPAIR_LENGTH ∧
        ∃ kp chunks msgs out,
          Keypair.fromBytes q kpBytes = some kp ∧
          parseBatch batchBytes = some chunks ∧
          chunks.mapM (AllMessage.fromBytes q) = some msgs ∧
          recombine hsig henc kp msgs = .ok out) →
      ∃ e, wasmSimplpedpopRecipientAll q hsig henc kpBytes batchBytes =
        .error e) := by
  have hiff : (∃ r, wasmSimplpedpopRecipientAll q hsig henc kpBytes batchBytes
        = .ok r) ↔
      kpBytes.length = KEYPAIR_LENGTH ∧
        ∃ kp chunks msgs out,
          Keypair.fromBytes q kpBytes = some kp ∧
          parseBatch batchBytes = some chunks ∧
          chunks.mapM (AllMessage.fromBytes q) = some msgs ∧
          recombine hsig henc kp msgs = .ok out := by
    constructor
    · rintro ⟨r, hr⟩
      rw [wasmSimplpedpopRecipientAll] at hr
      split at hr
      · exact absurd hr (by simp)
      next hlen =>
        split at hr
        · exact absurd hr (by simp)
        next kp hkp =>
          split at hr
          · exact absurd hr (by simp)
          next chunks hchunks =>
            split at hr
            · exact absurd hr (by simp)
            next msgs hmsgs =>
              split at hr
              · exact absurd hr (by simp)
              next outMsg skp hout =>
                exact ⟨by omega, kp, chunks, msgs, (outMsg, skp), hkp, hchunks,
                  hmsgs, hout⟩
    · rintro ⟨hlen, kp, chunks, msgs, ⟨outMsg, skp⟩, hkp, hchunks, hmsgs, hout⟩
      refine ⟨(scalarToBytes outMsg.output.thresholdPublicKey, outMsg.toBytes,
        skp.toBytes), ?_⟩
      rw [wasmSimplpedpopRecipientAll, if_neg (by omega)]
      simp only [hkp, hchunks, hmsgs, hout]
  refine ⟨hiff, ?_, ?_⟩
  · intro kp msgs out hout
    cases msgs with
    | nil => simp [recombine] at hout
    | cons m0 rest =>
        simp only [recombine] at hout
        by_cases h1 : (m0 :: rest).length ≠ m0.params.participants
        · rw [if_pos h1] at hout
          exact absurd hout (by simp)
        rw [if_neg h1] at hout
        by_cases h2 : m0.params.threshold = 0 ∨
            m0.params.participants < m0.params.threshold
        · rw [if_pos h2] at hout
          exact absurd hout (by simp)
        rw [if_neg h2] at hout
        by_cases h3 : ¬ ((m0 :: rest).all fun m => m.params == m0.params) = true
        · rw [if_pos h3] at hout
          exact absurd hout (by simp)
        rw [if_neg h3] at hout
        by_cases h4 : ¬ ((m0 :: rest).all fun m =>
            m.recipientsHash == m0.recipientsHash) = true
        · rw [if_pos h4] at hout
          exact absurd hout (by simp)
        rw [if_neg h4] at hout
        by_cases h5 : ¬ ((m0 :: rest).all fun m =>
            m.coeffCommitments.length == m0.params.threshold &&
              m.encryptedShares.length == m0.params.participants) = true
        · rw [if_pos h5] at hout
          exact absurd hout (by simp)
        rw [if_neg h5] at hout
        by_cases h6 : ¬ ((m0 :: rest).all fun m =>
            schnorrVerify hsig m.senderPk m.signature m.contentBytes &&
              schnorrVerify hsig m.senderPk m.pop (popMessage m.senderPk)) = true
        · rw [if_pos h6] at hout
          exact absurd hout (by simp)
        refine ⟨by simp, ?_, ?_, ?_, ?_, ?_⟩
        · simpa using not_ne_iff.mp h1
        · simpa using not_not.mp h3
        · simpa using not_not.mp h4
        · simpa using not_not.mp h5
        · simpa using not_not.mp h6
  · intro hno
    rcases except_ok_or_error
        (wasmSimplpedpopRecipientAll q hsig henc kpBytes batchBytes) with h | h
    · exact absurd (hiff.mp h) hno
    · exact h

/-- Witness for C7: on an input whose keypair bytes are not 96 bytes long the
call yields an error and no output. -/
theorem recombination_all_or_nothing_witness :
    ∃ e, wasmSimplpedpopRecipientAll 7 (fun _ => 0) (fun _ _ => 0) [] [] =
      .error e :=
  (recombination_all_or_nothing (q := 7) (fun _ => 0) (fun _ _ => 0) [] []).2.2
    (fun h => absurd h.1 (by decide))

/-- A successful recombination's public output (threshold public key,
parameters and verifying-share mapping) is `recombineOutput` of the message
set alone — it does not depend on the recipient's keypair. -/
theorem recombine_ok_output {q : Nat} [NeZero q] (hsig : List Nat → ZMod q)
    (henc : ZMod q → List Nat → ZMod q) (kp : Keypair q)
    (msgs : List (AllMessage q)) (r : SppOutputMessage q × SigningKeypair q)
    (h : recombine hsig henc kp msgs = .ok r) :
    r.1.output = recombineOutput q msgs := by
  cases msgs with
  | nil => simp [recombine] at h
  | cons m0 rest =>
      simp only [recombine] at h
      by_cases h1 : (m0 :: rest).length ≠ m0.params.participants
      · rw [if_pos h1] at h
        exact absurd h (by simp)
      rw [if_neg h1] at h
      by_cases h2 : m0.params.threshold = 0 ∨
          m0.params.participants < m0.params.threshold
      · rw [if_pos h2] at h
        exact absurd h (by simp)
      rw [if_neg h2] at h
      by_cases h3 : ¬ ((m0 :: rest).all fun m => m.params == m0.params) = true
      · rw [if_pos h3] at h
        exact absurd h (by simp)
      rw [if_neg h3] at h
      by_cases h4 : ¬ ((m0 :: rest).all fun m =>
          m.recipientsHash == m0.recipientsHash) = true
      · rw [if_pos h4] at h
        exact absurd h (by simp)
      rw [if_neg h4] at h
      by_cases h5 : ¬ ((m0 :: rest).all fun m =>
          m.coeffCommitments.length == m0.params.threshold &&
            m.encryptedShares.length == m0.params.participants) = true
      · rw [if_pos h5] at h
        exact absurd h (by simp)
      rw [if_neg h5] at h
      by_cases h6 : ¬ ((m0 :: rest).all fun m =>
          schnorrVerify hsig m.senderPk m.signature m.contentBytes &&
            schnorrVerify hsig m.senderPk m.pop (popMessage m.senderPk)) = true
      · rw [if_pos h6] at h
        exact absurd h (by simp)
      rw [if_neg h6] at h
      rcases hfind : (List.range m0.params.participants).find? (fun j =>
          (m0 :: rest).all fun m => decryptShare henc kp.secret m j ==
            evalPoly m.coeffCommitments (identifierOf q j)) with _ | j
      · rw [hfind] at h
        exact absurd h (by simp)
      · rw [hfind] at h
        rw [← Except.ok.inj h]

/-- Extraction of the success path of `wasm_simplpedpop_recipient_all`. -/
theorem wasmRecipient_ok_extract {q : Nat} [NeZero q]
    (hsig : List Nat → ZMod q) (henc : ZMod q → List Nat → ZMod q)
    (kpBytes batchBytes : List Nat) (r : List Nat × List Nat × List Nat)
    (h : wasmSimplpedpopRecipientAll q hsig henc kpBytes batchBytes = .ok r) :
    ∃ kp chunks msgs outMsg skp,
      Keypair.fromBytes q kpBytes = some kp ∧
      parseBatch batchBytes = some chunks ∧
      chunks.mapM (AllMessage.fromBytes q) = some msgs ∧
      recombine hsig henc kp msgs = .ok (outMsg, skp) ∧
      r = (scalarToBytes outMsg.output.thresholdPublicKey, outMsg.toBytes,
        skp.toBytes) := by
  rw [wasmSimplpedpopRecipientAll] at h
  split at h
  · exact absurd h (by simp)
  next hlen =>
    split at h
    · exact absurd h (by simp)
    next kp hkp =>
      split at h
      · exact absurd h (by simp)
      next chunks hchunks =>
        split at h
        · exact absurd h (by simp)
        next msgs hmsgs =>
          split at h
          · exact absurd h (by simp)
          next outMsg skp hout =>
            exact ⟨kp, chunks, msgs, outMsg, skp, hkp, hchunks, hmsgs, hout,
              (Except.ok.inj h).symm⟩

/-- C1: DKG agreement — when two (arbitrary) recipients both successfully run
`wasm_simplpedpop_recipient_all` on the same batch of contribution messages,
the returned threshold-public-key bytes are identical, and the verifying-share
mappings inside the two returned `SPPOutputMessage` byte strings are
identical (the output messages differ only in the recipients' own signatures
and keys). -/
theorem dkg_agreement {q : Nat} [NeZero q] (hsig : List Nat → ZMod q)
    (henc : ZMod q → List Nat → ZMod q) (kpABytes kpBBytes batchBytes : List Nat)
    (rA rB : List Nat × List Nat × List Nat)
    (hA : wasmSimplpedpopRecipientAll q hsig henc kpABytes batchBytes = .ok rA)
    (hB : wasmSimplpedpopRecipientAll q hsig henc kpBBytes batchBytes = .ok rB) :
    rA.1 = rB.1 ∧
    ∃ oA oB : SppOutputMessage q,
      rA.2.1 = oA.toBytes ∧ rB.2.1 = oB.toBytes ∧ oA.output = oB.output ∧
      (oA.output.verifyingShares.map sharePairToBytes).flatten =
        (oB.output.verifyingShares.map sharePairToBytes).flatten := by
  obtain ⟨kpA, chunksA, msgsA, oA, sA, hkpA, hchA, hmsA, hrecA, hrA⟩ :=
    wasmRecipient_ok_extract hsig henc kpABytes batchBytes rA hA
  obtain ⟨kpB, chunksB, msgsB, oB, sB, hkpB, hchB, hmsB, hrecB, hrB⟩ :=
    wasmRecipient_ok_extract hsig henc kpBBytes batchBytes rB hB
  have hch : chunksA = chunksB := by
    rw [hchA] at hchB
    exact Option.some.inj hchB
  have hms : msgsA = msgsB := by
    rw [← hch, hmsA] at hmsB
    exact Option.some.inj hmsB
  have houtA : oA.output = recombineOutput q msgsA :=
    recombine_ok_output hsig henc kpA msgsA (oA, sA) hrecA
  have houtB : oB.output = recombineOutput q msgsB :=
    recombine_ok_output hsig henc kpB msgsB (oB, sB) hrecB
  have hout : oA.output = oB.output := by rw [houtA, houtB, hms]
  constructor
  · rw [hrA, hrB]
    simp only []
    rw [hout]
  · exact ⟨oA, oB, by rw [hrA], by rw [hrB], hout, by rw [hout]⟩

/-! A concrete honest 2-of-2 DKG run over `ZMod 7`, used as the witness for the
agreement theorem: two fixed seeds, both participants contribute to the same
recipient set with threshold 2, and both recombine the same batch. -/

def hsW : List Nat → ZMod 7 := fun _ => 0

def heW : ZMod 7 → List Nat → ZMod 7 := fun p _ => p

def rngW : Nat → ZMod 7 := fun i => ((i + 1 : Nat) : ZMod 7)

def seedA : List Nat := 1 :: List.replicate 31 0

def seedB : List Nat := 2 :: List.replicate 31 0

def kpA7 : Keypair 7 := expandToKeypair 7 seedA

def kpB7 : Keypair 7 := expandToKeypair 7 seedB

def msgA7 : AllMessage 7 :=
  (simplpedpopContributeAll hsW heW kpA7 2 [1, 2] rngW).toOption.getD
    (defaultAllMessage 7)

def msgB7 : AllMessage 7 :=
  (simplpedpopContributeAll hsW heW kpB7 2 [1, 2] rngW).toOption.getD
    (defaultAllMessage 7)

def batchW : List Nat := batchToBytes [msgA7.toBytes, msgB7.toBytes]

def rA7 : List Nat × List Nat × List Nat :=
  (wasmSimplpedpopRecipientAll 7 hsW heW kpA7.toBytes batchW).toOption.getD
    ([], [], [])

def rB7 : List Nat × List Nat × List Nat :=
  (wasmSimplpedpopRecipientAll 7 hsW heW kpB7.toBytes batchW).toOption.getD
    ([], [], [])

set_option maxRecDepth 1000000 in
set_option maxHeartbeats 8000000 in
/-- Witness for C1: in the concrete honest 2-participant run both recipients'
calls succeed and their outputs carry byte-identical threshold public keys and
verifying-share mappings. -/
theorem dkg_agreement_witness :
    rA7.1 = rB7.1 ∧
    ∃ oA oB : SppOutputMessage 7,
      rA7.2.1 = oA.toBytes ∧ rB7.2.1 = oB.toBytes ∧ oA.output = oB.output ∧
      (oA.output.verifyingShares.map sharePairToBytes).flatten =
        (oB.output.verifyingShares.map sharePairToBytes).flatten :=
  dkg_agreement hsW heW kpA7.toBytes kpB7.toBytes batchW rA7 rB7
    (by decide) (by decide)

/-! A concrete round-2 signing configuration over `ZMod 7`, used to evaluate
`wasm_threshold_sign_round2` on reused nonce bytes. -/

def hbfW : List Nat → List Nat → List (SigningCommitments 7) → ZMod 7 → ZMod 7 :=
  fun _ _ _ _ => 0

def hchW : ZMod 7 → ZMod 7 → List Nat → List Nat → ZMod 7 := fun _ _ _ _ => 1

def shareW : List Nat := SigningKeypair.toBytes (q := 7) ⟨1, 6, 6⟩

def noncesW : List Nat := SigningNonces.toBytes (q := 7) ⟨1, 2⟩

def commW : List Nat :=
  batchToBytes [SigningCommitments.toBytes (q := 7) ⟨1, 1, 2⟩,
    SigningCommitments.toBytes (q := 7) ⟨2, 3, 4⟩]

def sppW : List Nat :=
  SppOutputMessage.toBytes (q := 7) ⟨1, ⟨⟨2, 2⟩, 2, [(1, 6), (2, 3)]⟩, ⟨0, 0⟩⟩

def pkg1W : List Nat :=
  (wasmThresholdSignRound2 7 hbfW hchW shareW noncesW commW sppW
    [1] []).toOption.getD []

def pkg2W : List Nat :=
  (wasmThresholdSignRound2 7 hbfW hchW shareW noncesW commW sppW
    [2] []).toOption.getD []

set_option maxRecDepth 1000000 in
set_option maxHeartbeats 8000000 in
/-- C5: evaluation of the code at the failing input — two calls of
`wasm_threshold_sign_round2` with byte-identical `signing_nonces_bytes` but
different messages both return `ok` signing packages: the wasm layer neither
structurally prevents nonce reuse (the nonces are plain bytes that can be
passed again) nor flags it as an error, contrary to the specification's
single-use requirement. -/
theorem nonce_reuse_not_prevented :
    wasmThresholdSignRound2 7 hbfW hchW shareW noncesW commW sppW [1] [] =
      .ok pkg1W ∧
    wasmThresholdSignRound2 7 hbfW hchW shareW noncesW commW sppW [2] [] =
      .ok pkg2W ∧
    ([1] : List Nat) ≠ [2] := by
  exact ⟨by decide, by decide, by decide⟩
